import Mathlib

/-!
Verification development for `combine.py` of the tumult/hype-documentation
repository.  The script concatenates markdown fragments into one document,
rewriting embedded HTML (YouTube embeds, image attributes, document links,
tables) into markdown form, and reconciles the image folder against the
references occurring in the assembled document.

The Python regular-expression passes are embedded as executable scanners
over `List Char`: each `re.sub` call becomes a left-to-right scan that at
every position first tries the (faithfully transcribed) pattern and, on a
match, emits the replacement and resumes after the match, otherwise copies
one character.  Greedy character classes become `List.takeWhile`, lazy
groups become an explicit search for the earliest viable continuation, and
backtracking of a greedy star before a literal becomes a search for the
latest viable continuation.  The stateful `html.parser`-based table
translator becomes a fold over a stream of start-tag/end-tag/data events.
-/

set_option maxRecDepth 10000

namespace Combine

/-! ## Generic scanning primitives -/

/-- Match a literal character sequence at the start of the input, returning
the remainder on success. -/
def lit : List Char → List Char → Option (List Char)
  | [], s => some s
  | _ :: _, [] => none
  | p :: ps, c :: cs => if c = p then lit ps cs else none

theorem lit_nil (s : List Char) : lit [] s = some s := rfl

theorem lit_eq_some {p s r : List Char} (h : lit p s = some r) : s = p ++ r := by
  induction p generalizing s with
  | nil =>
    simp only [lit, Option.some_inj] at h
    simp [h]
  | cons x xs ih =>
    cases s with
    | nil => simp [lit] at h
    | cons c cs =>
      simp only [lit] at h
      split at h
      · rename_i hc
        subst hc
        simpa using ih h
      · exact absurd h (by simp)

theorem lit_append (p r : List Char) : lit p (p ++ r) = some r := by
  induction p with
  | nil => rfl
  | cons x xs ih => simp [lit, ih]

theorem lit_length_le {p s r : List Char} (h : lit p s = some r) :
    r.length ≤ s.length := by
  have := lit_eq_some h
  subst this
  simp

/-- Occurrence of `p` as a contiguous subsequence of `s`. -/
def OccursIn (p s : List Char) : Prop := ∃ a b, s = a ++ p ++ b

theorem occursIn_of_lit {p s r : List Char} (h : lit p s = some r) : OccursIn p s :=
  ⟨[], r, by simpa using lit_eq_some h⟩

theorem occursIn_cons {p s : List Char} (c : Char) (h : OccursIn p s) :
    OccursIn p (c :: s) := by
  obtain ⟨a, b, rfl⟩ := h
  exact ⟨c :: a, b, by simp⟩

theorem occursIn_append_left {p s : List Char} (t : List Char) (h : OccursIn p s) :
    OccursIn p (t ++ s) := by
  induction t with
  | nil => simpa using h
  | cons c cs ih => exact occursIn_cons c ih

/-- Boolean test for `OccursIn`, giving a kernel-computable decision. -/
def occursB (p : List Char) : List Char → Bool
  | [] => (lit p []).isSome
  | c :: cs => (lit p (c :: cs)).isSome || occursB p cs

theorem occursB_eq_true_iff (p s : List Char) : occursB p s = true ↔ OccursIn p s := by
  induction s with
  | nil =>
    simp only [occursB, Option.isSome_iff_exists]
    constructor
    · rintro ⟨r, hr⟩
      exact occursIn_of_lit hr
    · rintro ⟨a, b, hab⟩
      have hlen := congrArg List.length hab
      simp only [List.length_nil, List.length_append] at hlen
      have hp : p = [] := List.length_eq_zero.mp (by omega)
      subst hp
      exact ⟨[], rfl⟩
  | cons c cs ih =>
    simp only [occursB, Bool.or_eq_true, Option.isSome_iff_exists, ih]
    constructor
    · rintro (⟨r, hr⟩ | h)
      · exact occursIn_of_lit hr
      · exact occursIn_cons c h
    · rintro ⟨a, b, hab⟩
      cases a with
      | nil =>
        left
        refine ⟨b, ?_⟩
        simp only [List.nil_append] at hab
        rw [hab, lit_append]
      | cons a0 as =>
        right
        simp only [List.cons_append, List.cons.injEq] at hab
        exact ⟨as, b, hab.2⟩

instance (p s : List Char) : Decidable (OccursIn p s) :=
  decidable_of_iff (occursB p s = true) (occursB_eq_true_iff p s)

/-! ## Substitution driver

A matcher consumes some nonempty part of the input and yields the
replacement text together with the rest of the input.  `subFuel` performs
the left-to-right scan of `re.sub`, `findFuel` the scan of `re.findall`. -/

/-- Matchers return the replacement (for `re.sub`) or the captured payload
(for `re.findall`), paired with the unconsumed remainder of the input. -/
abbrev Matcher := List Char → Option (List Char × List Char)

/-- Matchers used with the drivers must consume at least one character. -/
def Shrinking (m : Matcher) : Prop :=
  ∀ s p rest, m s = some (p, rest) → rest.length < s.length

def subFuel (m : Matcher) : Nat → List Char → List Char
  | 0, s => s
  | _ + 1, [] => []
  | n + 1, c :: cs =>
    match m (c :: cs) with
    | some (p, rest) => p ++ subFuel m n rest
    | none => c :: subFuel m n cs

theorem subFuel_succ_match {m : Matcher} {c : Char} {cs p rest : List Char} (n : Nat)
    (h : m (c :: cs) = some (p, rest)) :
    subFuel m (n + 1) (c :: cs) = p ++ subFuel m n rest := by
  simp [subFuel, h]

theorem subFuel_succ_nomatch {m : Matcher} {c : Char} {cs : List Char} (n : Nat)
    (h : m (c :: cs) = none) :
    subFuel m (n + 1) (c :: cs) = c :: subFuel m n cs := by
  simp [subFuel, h]

/-- Semantics of `re.sub`: scan from the left, replacing each
non-overlapping match and copying non-matching characters. -/
def runSub (m : Matcher) (s : List Char) : List Char := subFuel m s.length s

def findFuel (m : Matcher) : Nat → List Char → List (List Char)
  | 0, _ => []
  | _ + 1, [] => []
  | n + 1, c :: cs =>
    match m (c :: cs) with
    | some (p, rest) => p :: findFuel m n rest
    | none => findFuel m n cs

theorem findFuel_succ_match {m : Matcher} {c : Char} {cs p rest : List Char} (n : Nat)
    (h : m (c :: cs) = some (p, rest)) :
    findFuel m (n + 1) (c :: cs) = p :: findFuel m n rest := by
  simp [findFuel, h]

theorem findFuel_succ_nomatch {m : Matcher} {c : Char} {cs : List Char} (n : Nat)
    (h : m (c :: cs) = none) :
    findFuel m (n + 1) (c :: cs) = findFuel m n cs := by
  simp [findFuel, h]

/-- Semantics of `re.findall`: collect the payloads of all
non-overlapping matches, scanning from the left. -/
def runFind (m : Matcher) (s : List Char) : List (List Char) := findFuel m s.length s

theorem subFuel_congr {m : Matcher} (hm : Shrinking m) :
    ∀ n n' s, s.length ≤ n → s.length ≤ n' → subFuel m n s = subFuel m n' s := by
  intro n
  induction n with
  | zero =>
    intro n' s hn _
    have hs : s = [] := List.length_eq_zero.mp (Nat.le_zero.mp hn)
    subst hs
    cases n' <;> rfl
  | succ k ih =>
    intro n' s hn hn'
    cases s with
    | nil => cases n' <;> rfl
    | cons c cs =>
      cases n' with
      | zero => simp at hn'
      | succ k' =>
        cases hmc : m (c :: cs) with
        | none =>
          have h1 : cs.length ≤ k := by simp at hn; omega
          have h2 : cs.length ≤ k' := by simp at hn'; omega
          rw [subFuel_succ_nomatch k hmc, subFuel_succ_nomatch k' hmc, ih k' cs h1 h2]
        | some pr =>
          obtain ⟨p, rest⟩ := pr
          have hlt := hm _ _ _ hmc
          have h1 : rest.length ≤ k := by simp at hn hlt; omega
          have h2 : rest.length ≤ k' := by simp at hn' hlt; omega
          rw [subFuel_succ_match k hmc, subFuel_succ_match k' hmc, ih k' rest h1 h2]

theorem runSub_nil (m : Matcher) : runSub m [] = [] := rfl

theorem runSub_match {m : Matcher} (hm : Shrinking m) {c : Char} {cs p rest : List Char}
    (h : m (c :: cs) = some (p, rest)) :
    runSub m (c :: cs) = p ++ runSub m rest := by
  have hlt := hm _ _ _ h
  simp only [runSub, List.length_cons]
  rw [subFuel_succ_match cs.length h]
  congr 1
  exact subFuel_congr hm _ _ _ (by simp at hlt; omega) le_rfl

theorem runSub_nomatch {m : Matcher} {c : Char} {cs : List Char}
    (h : m (c :: cs) = none) :
    runSub m (c :: cs) = c :: runSub m cs := by
  simp only [runSub, List.length_cons]
  rw [subFuel_succ_nomatch cs.length h]

theorem runSub_id {m : Matcher} :
    ∀ s : List Char, (∀ c cs, (c :: cs) <:+ s → m (c :: cs) = none) → runSub m s = s := by
  intro s
  induction s with
  | nil => intro _; rfl
  | cons c cs ih =>
    intro h
    rw [runSub_nomatch (h c cs (List.suffix_refl _))]
    rw [ih fun d ds hsuf => h d ds (hsuf.trans (List.suffix_cons c cs))]

theorem runSub_append_nomatch {m : Matcher} :
    ∀ (a b : List Char),
      (∀ c cs, (c :: cs) <:+ a → m (c :: cs ++ b) = none) →
      runSub m (a ++ b) = a ++ runSub m b := by
  intro a
  induction a with
  | nil => intro b _; rfl
  | cons c cs ih =>
    intro b h
    have h0 : m (c :: (cs ++ b)) = none := by
      have := h c cs (List.suffix_refl _)
      simpa using this
    have hrest := ih b fun d ds hsuf => h d ds (hsuf.trans (List.suffix_cons c cs))
    rw [List.cons_append, runSub_nomatch h0, hrest]
    simp

theorem runFind_nil (m : Matcher) : runFind m [] = [] := rfl

theorem findFuel_congr {m : Matcher} (hm : Shrinking m) :
    ∀ n n' s, s.length ≤ n → s.length ≤ n' → findFuel m n s = findFuel m n' s := by
  intro n
  induction n with
  | zero =>
    intro n' s hn _
    have hs : s = [] := List.length_eq_zero.mp (Nat.le_zero.mp hn)
    subst hs
    cases n' <;> rfl
  | succ k ih =>
    intro n' s hn hn'
    cases s with
    | nil => cases n' <;> rfl
    | cons c cs =>
      cases n' with
      | zero => simp at hn'
      | succ k' =>
        cases hmc : m (c :: cs) with
        | none =>
          have h1 : cs.length ≤ k := by simp at hn; omega
          have h2 : cs.length ≤ k' := by simp at hn'; omega
          rw [findFuel_succ_nomatch k hmc, findFuel_succ_nomatch k' hmc, ih k' cs h1 h2]
        | some pr =>
          obtain ⟨p, rest⟩ := pr
          have hlt := hm _ _ _ hmc
          have h1 : rest.length ≤ k := by simp at hn hlt; omega
          have h2 : rest.length ≤ k' := by simp at hn' hlt; omega
          rw [findFuel_succ_match k hmc, findFuel_succ_match k' hmc, ih k' rest h1 h2]

theorem runFind_match {m : Matcher} (hm : Shrinking m) {c : Char} {cs p rest : List Char}
    (h : m (c :: cs) = some (p, rest)) :
    runFind m (c :: cs) = p :: runFind m rest := by
  have hlt := hm _ _ _ h
  simp only [runFind, List.length_cons]
  rw [findFuel_succ_match cs.length h]
  congr 1
  exact findFuel_congr hm _ _ _ (by simp at hlt; omega) le_rfl

theorem runFind_nomatch {m : Matcher} {c : Char} {cs : List Char}
    (h : m (c :: cs) = none) :
    runFind m (c :: cs) = runFind m cs := by
  simp only [runFind, List.length_cons]
  rw [findFuel_succ_nomatch cs.length h]

theorem runFind_append_nomatch {m : Matcher} :
    ∀ (a b : List Char),
      (∀ c cs, (c :: cs) <:+ a → m (c :: cs ++ b) = none) →
      runFind m (a ++ b) = runFind m b := by
  intro a
  induction a with
  | nil => intro b _; rfl
  | cons c cs ih =>
    intro b h
    have h0 : m (c :: (cs ++ b)) = none := by
      have := h c cs (List.suffix_refl _)
      simpa using this
    have hrest := ih b fun d ds hsuf => h d ds (hsuf.trans (List.suffix_cons c cs))
    rw [List.cons_append, runFind_nomatch h0, hrest]

/-! ## Character classes and small parsing helpers -/

/-- ASCII whitespace as matched by Python's `\s` and stripped by `str.strip`. -/
def isPyWs (c : Char) : Bool :=
  c == ' ' || c == '\t' || c == '\n' || c == '\x0d' || c == '\x0b' || c == '\x0c'

/-- Helper for the regex form `([^"]+)"`: a nonempty run of non-quote
characters followed by a closing double quote. -/
def quotedVal (s : List Char) : Option (List Char × List Char) :=
  let v := s.takeWhile (fun c => c != '"')
  match s.dropWhile (fun c => c != '"') with
  | '"' :: r => if v.isEmpty then none else some (v, r)
  | _ => none

/-- Helper for the regex form `([^"]*)"`: a possibly empty run of non-quote
characters followed by a closing double quote. -/
def quotedValStar (s : List Char) : Option (List Char × List Char) :=
  match s.dropWhile (fun c => c != '"') with
  | '"' :: r => some (s.takeWhile (fun c => c != '"'), r)
  | _ => none

/-- Helper for the regex form `([^>]*?)>`: the characters up to the first
`>`, which must exist. -/
def upToGt (s : List Char) : Option (List Char × List Char) :=
  match s.dropWhile (fun c => c != '>') with
  | '>' :: r => some (s.takeWhile (fun c => c != '>'), r)
  | _ => none

/-- Helper for the regex form `(\d+)"`: a nonempty run of digits followed
by a closing double quote. -/
def digitsVal (s : List Char) : Option (List Char) :=
  let v := s.takeWhile (fun c => c.isDigit)
  if v.isEmpty then none
  else
    match s.dropWhile (fun c => c.isDigit) with
    | '"' :: _ => some v
    | _ => none

/-- Search for the earliest position where the literal `pat` matches and the
continuation `k` succeeds on the remainder, the characters skipped over being
restricted to non-`>` characters.  This is the semantics of a lazy group
`([^>]*?)` followed by a literal and further pattern parts, including the
backtracking that retries later positions when the continuation fails. -/
def searchNoGt {α : Type} (pat : List Char) (k : List Char → Option α) :
    List Char → Option (List Char × α)
  | [] => none
  | c :: cs =>
    match lit pat (c :: cs) with
    | some r =>
      match k r with
      | some a => some ([], a)
      | none =>
        if c = '>' then none
        else (searchNoGt pat k cs).map (fun pa => (c :: pa.1, pa.2))
    | none =>
      if c = '>' then none
      else (searchNoGt pat k cs).map (fun pa => (c :: pa.1, pa.2))

/-- Search for the earliest position where the literal `pat` matches and the
continuation `k` succeeds on the remainder; the semantics of `re.search` for
patterns beginning with a literal. -/
def searchK {α : Type} (pat : List Char) (k : List Char → Option α) :
    List Char → Option α
  | [] =>
    match lit pat [] with
    | some r => k r
    | none => none
  | c :: cs =>
    match lit pat (c :: cs) with
    | some r =>
      match k r with
      | some a => some a
      | none => searchK pat k cs
    | none => searchK pat k cs

theorem searchNoGt_eq_some {α : Type} {pat : List Char} {k : List Char → Option α}
    {s pre : List Char} {a : α} (h : searchNoGt pat k s = some (pre, a)) :
    ∃ r, s = pre ++ pat ++ r ∧ k r = some a := by
  induction s generalizing pre with
  | nil => simp [searchNoGt] at h
  | cons c cs ih =>
    cases hl : lit pat (c :: cs) with
    | some r =>
      cases hk : k r with
      | some a' =>
        simp only [searchNoGt, hl, hk, Option.some_inj, Prod.mk.injEq] at h
        obtain ⟨h1, h2⟩ := h
        subst h1
        subst h2
        exact ⟨r, by simpa using lit_eq_some hl, hk⟩
      | none =>
        simp only [searchNoGt, hl, hk] at h
        split at h
        · simp at h
        · cases hs : searchNoGt pat k cs with
          | none => rw [hs] at h; simp at h
          | some pa =>
            rw [hs] at h
            obtain ⟨pre', a'⟩ := pa
            simp at h
            obtain ⟨h1, h2⟩ := h
            subst h2
            obtain ⟨r', hr1, hr2⟩ := ih hs
            exact ⟨r', by simp [← h1, hr1], hr2⟩
    | none =>
      simp only [searchNoGt, hl] at h
      split at h
      · simp at h
      · cases hs : searchNoGt pat k cs with
        | none => rw [hs] at h; simp at h
        | some pa =>
          rw [hs] at h
          obtain ⟨pre', a'⟩ := pa
          simp at h
          obtain ⟨h1, h2⟩ := h
          subst h2
          obtain ⟨r', hr1, hr2⟩ := ih hs
          exact ⟨r', by simp [← h1, hr1], hr2⟩

theorem searchK_eq_some {α : Type} {pat : List Char} {k : List Char → Option α}
    {s : List Char} {a : α} (h : searchK pat k s = some a) :
    ∃ pre r, s = pre ++ pat ++ r ∧ k r = some a := by
  induction s with
  | nil =>
    cases hl : lit pat [] with
    | some r =>
      simp only [searchK, hl] at h
      exact ⟨[], r, by simpa using lit_eq_some hl, h⟩
    | none => simp [searchK, hl] at h
  | cons c cs ih =>
    cases hl : lit pat (c :: cs) with
    | some r =>
      cases hk : k r with
      | some a' =>
        simp only [searchK, hl, hk, Option.some_inj] at h
        subst h
        exact ⟨[], r, by simpa using lit_eq_some hl, hk⟩
      | none =>
        simp only [searchK, hl, hk] at h
        obtain ⟨pre, r', h1, h2⟩ := ih h
        exact ⟨c :: pre, r', by simp [h1], h2⟩
    | none =>
      simp only [searchK, hl] at h
      obtain ⟨pre, r', h1, h2⟩ := ih h
      exact ⟨c :: pre, r', by simp [h1], h2⟩

theorem quotedVal_eq_some {s v r : List Char} (h : quotedVal s = some (v, r)) :
    s = v ++ '"' :: r ∧ v ≠ [] ∧ ∀ c ∈ v, c ≠ '"' := by
  simp only [quotedVal] at h
  cases hd : s.dropWhile (fun c => c != '"') with
  | nil => rw [hd] at h; simp at h
  | cons d ds =>
    rw [hd] at h
    by_cases hq : d = '"'
    · subst hq
      simp only at h
      split at h
      · simp at h
      · rename_i hne
        simp only [Option.some_inj, Prod.mk.injEq] at h
        obtain ⟨h1, h2⟩ := h
        subst h1
        subst h2
        refine ⟨?_, by simpa [List.isEmpty_iff] using hne, ?_⟩
        · conv_lhs => rw [← List.takeWhile_append_dropWhile (p := fun c => c != '"') (l := s)]
          rw [hd]
        · intro c hc
          have := List.mem_takeWhile_imp hc
          simpa using this
    · exfalso
      have : (fun c => c != '"') d = false := by
        have := List.head_dropWhile_not (p := fun c => c != '"') (l := s) (by simp [hd])
        simpa [hd] using this
      simp at this
      exact hq this

theorem upToGt_eq_some {s v r : List Char} (h : upToGt s = some (v, r)) :
    s = v ++ '>' :: r ∧ ∀ c ∈ v, c ≠ '>' := by
  simp only [upToGt] at h
  cases hd : s.dropWhile (fun c => c != '>') with
  | nil => rw [hd] at h; simp at h
  | cons d ds =>
    rw [hd] at h
    by_cases hq : d = '>'
    · subst hq
      simp only [Option.some_inj, Prod.mk.injEq] at h
      obtain ⟨h1, h2⟩ := h
      subst h1
      subst h2
      refine ⟨?_, ?_⟩
      · conv_lhs => rw [← List.takeWhile_append_dropWhile (p := fun c => c != '>') (l := s)]
        rw [hd]
      · intro c hc
        have := List.mem_takeWhile_imp hc
        simpa using this
    · exfalso
      have : (fun c => c != '>') d = false := by
        have := List.head_dropWhile_not (p := fun c => c != '>') (l := s) (by simp [hd])
        simpa [hd] using this
      simp at this
      exact hq this

/-! ## The inline rewriting passes of combine.py

Each `process_*` function below is the embedding of the correspondingly
named Python function; the matcher next to it transcribes that function's
regular expression. -/

/-- Fixed documentation base URL used by `process_document_links` and
`process_markdown_document_links`. -/
def docBase : List Char := "https://tumult.com/hype/documentation/v4/documents/".data

/-- Fixed raw-content base URL used by `process_image_paths`. -/
def rawBase : List Char :=
  "https://raw.githubusercontent.com/tumult/hype-documentation/refs/heads/main/images/".data

/-- Rebuild of an `<img>` tag shared by `process_images` and
`process_data_src_images`: keep `class` when present, promote the given
source to `src`, keep numeric `width`/`height` when present, keep `alt`
when present and add `alt=""` otherwise; all other attributes are dropped. -/
def buildImgTag (allAttrs : List Char) (src : List Char) : List Char :=
  let classM := searchK "class=\"".data (fun r => (quotedValStar r).map Prod.fst) allAttrs
  let widthM := searchK "width=\"".data digitsVal allAttrs
  let heightM := searchK "height=\"".data digitsVal allAttrs
  let altM := searchK "alt=\"".data (fun r => (quotedValStar r).map Prod.fst) allAttrs
  let newAttrs :=
    (match classM with
      | some v => ["class=\"".data ++ v ++ ['"']]
      | none => []) ++
    ["src=\"".data ++ src ++ ['"']] ++
    (match widthM with
      | some v => ["width=\"".data ++ v ++ ['"']]
      | none => []) ++
    (match heightM with
      | some v => ["height=\"".data ++ v ++ ['"']]
      | none => []) ++
    [match altM with
      | some v => "alt=\"".data ++ v ++ ['"']
      | none => "alt=\"\"".data]
  "<img ".data ++ List.intercalate [' '] newAttrs ++ "/>".data

/-- Matcher for `process_youtube_videos`' pattern
`<div class="js-lazyYT" data-youtube-id="([^"]+)"[^>]*>Loading\.\.\.</div>`. -/
def matchYoutube : Matcher := fun s =>
  match lit "<div class=\"js-lazyYT\" data-youtube-id=\"".data s with
  | none => none
  | some r1 =>
    match quotedVal r1 with
    | none => none
    | some (vid, r2) =>
      match upToGt r2 with
      | none => none
      | some (_, r3) =>
        match lit "Loading...</div>".data r3 with
        | none => none
        | some rest =>
          some ("[![YouTube Video Thumbnail](https://img.youtube.com/vi/".data ++ vid ++
                "/0.jpg)](https://www.youtube.com/watch?v=".data ++ vid ++ [')'], rest)

/-- Continuation after the literal `data-src-retina="` inside
`process_images`' pattern: the `([^"]+)"` value group and the `([^>]*?)>`
tail group. -/
def retinaTail (r : List Char) : Option (List Char × List Char × List Char) :=
  match quotedVal r with
  | none => none
  | some (v, r3) =>
    match upToGt r3 with
    | none => none
    | some (g3, rest) => some (v, g3, rest)

/-- Matcher for `process_images`' pattern
`<img\s+([^>]*?)data-src-retina="([^"]+)"([^>]*?)>`. -/
def matchImgRetina : Matcher := fun s =>
  match lit "<img".data s with
  | none => none
  | some r1 =>
    if (r1.takeWhile isPyWs).isEmpty then none
    else
      match searchNoGt "data-src-retina=\"".data retinaTail (r1.dropWhile isPyWs) with
      | none => none
      | some (g1, v, g3, rest) => some (buildImgTag (g1 ++ g3) v, rest)

/-- Continuation after the literal `data-src="` inside
`process_data_src_images`' pattern: the `([^"]+)"` value group, the
negative lookahead `(?![^>]*data-src-retina)`, and the `([^>]*?)>` tail
group. -/
def dataSrcTail (r : List Char) : Option (List Char × List Char × List Char) :=
  match quotedVal r with
  | none => none
  | some (v, r3) =>
    if occursB "data-src-retina".data (r3.takeWhile (fun c => c != '>')) then none
    else
      match upToGt r3 with
      | none => none
      | some (g3, rest) => some (v, g3, rest)

/-- Matcher for `process_data_src_images`' pattern
`<img\s+([^>]*?)data-src="([^"]+)"(?![^>]*data-src-retina)([^>]*?)>`. -/
def matchImgDataSrc : Matcher := fun s =>
  match lit "<img".data s with
  | none => none
  | some r1 =>
    if (r1.takeWhile isPyWs).isEmpty then none
    else
      match searchNoGt "data-src=\"".data dataSrcTail (r1.dropWhile isPyWs) with
      | none => none
      | some (g1, v, g3, rest) => some (buildImgTag (g1 ++ g3) v, rest)

/-- Matcher for `process_document_links`' pattern `((?:href|src)=")documents/`. -/
def matchDocLink : Matcher := fun s =>
  match lit "href=\"documents/".data s with
  | some rest => some ("href=\"".data ++ docBase, rest)
  | none =>
    match lit "src=\"documents/".data s with
    | some rest => some ("src=\"".data ++ docBase, rest)
    | none => none

/-- Matcher for `process_markdown_document_links`' pattern
`(\[([^\]]+)\]\()documents/`. -/
def matchMdDocLink : Matcher := fun s =>
  match s with
  | '[' :: r1 =>
    let lab := r1.takeWhile (fun c => c != ']')
    if lab.isEmpty then none
    else
      match r1.dropWhile (fun c => c != ']') with
      | ']' :: '(' :: r2 =>
        match lit "documents/".data r2 with
        | some rest => some ('[' :: lab ++ "](".data ++ docBase, rest)
        | none => none
      | _ => none
  | _ => none

/-- Matcher for `process_image_paths`' pattern
`((?:src|href|data-src-2x)=")images/`. -/
def matchImagePath : Matcher := fun s =>
  match lit "src=\"images/".data s with
  | some rest => some ("src=\"".data ++ rawBase, rest)
  | none =>
    match lit "href=\"images/".data s with
    | some rest => some ("href=\"".data ++ rawBase, rest)
    | none =>
      match lit "data-src-2x=\"images/".data s with
      | some rest => some ("data-src-2x=\"".data ++ rawBase, rest)
      | none => none

/-- Embedding of `process_youtube_videos`. -/
def process_youtube_videos (content : String) : String :=
  ⟨runSub matchYoutube content.data⟩

/-- Embedding of `process_images`. -/
def process_images (content : String) : String :=
  ⟨runSub matchImgRetina content.data⟩

/-- Embedding of `process_data_src_images`. -/
def process_data_src_images (content : String) : String :=
  ⟨runSub matchImgDataSrc content.data⟩

/-- Embedding of `process_document_links`. -/
def process_document_links (content : String) : String :=
  ⟨runSub matchDocLink content.data⟩

/-- Embedding of `process_markdown_document_links`. -/
def process_markdown_document_links (content : String) : String :=
  ⟨runSub matchMdDocLink content.data⟩

/-- Embedding of `process_image_paths`. -/
def process_image_paths (content : String) : String :=
  ⟨runSub matchImagePath content.data⟩

/-- Embedding of the two final `str.replace` calls of
`combine_markdown_files`: non-breaking spaces become ordinary spaces, and
the replacement of a space by a space is the identity it is in the source. -/
def replace_nbsp (content : String) : String :=
  ⟨(content.data.map (fun c => if c = '\u00A0' then ' ' else c)).map
    (fun c => if c = ' ' then ' ' else c)⟩

/-! ## The matchers consume at least one character -/

theorem length_dropWhile_le' (p : Char → Bool) (l : List Char) :
    (l.dropWhile p).length ≤ l.length := by
  induction l with
  | nil => simp
  | cons c cs ih =>
    by_cases h : p c
    · simp only [List.dropWhile_cons, h, if_true]
      exact ih.trans (by simp)
    · simp [List.dropWhile_cons, h]

theorem matchYoutube_shrink : Shrinking matchYoutube := by
  intro s p rest h
  cases h1 : lit "<div class=\"js-lazyYT\" data-youtube-id=\"".data s with
  | none => simp [matchYoutube, h1] at h
  | some r1 =>
    cases h2 : quotedVal r1 with
    | none => simp [matchYoutube, h1, h2] at h
    | some vr =>
      obtain ⟨vid, r2⟩ := vr
      cases h3 : upToGt r2 with
      | none => simp [matchYoutube, h1, h2, h3] at h
      | some gr =>
        obtain ⟨g, r3⟩ := gr
        cases h4 : lit "Loading...</div>".data r3 with
        | none => simp [matchYoutube, h1, h2, h3, h4] at h
        | some rest' =>
          simp only [matchYoutube, h1, h2, h3, h4, Option.some_inj, Prod.mk.injEq] at h
          obtain ⟨-, hrest⟩ := h
          subst hrest
          have e1 := lit_eq_some h1
          have e2 := (quotedVal_eq_some h2).1
          have e3 := (upToGt_eq_some h3).1
          have e4 := lit_eq_some h4
          subst e1
          subst e2
          subst e3
          subst e4
          simp [List.length_append]
          omega

theorem matchImgRetina_shrink : Shrinking matchImgRetina := by
  intro s p rest h
  cases h1 : lit "<img".data s with
  | none => simp [matchImgRetina, h1] at h
  | some r1 =>
    by_cases hws : (r1.takeWhile isPyWs).isEmpty
    · simp [matchImgRetina, h1, hws] at h
    · cases h2 : searchNoGt "data-src-retina=\"".data retinaTail (r1.dropWhile isPyWs) with
      | none => simp [matchImgRetina, h1, hws, h2] at h
      | some ga =>
        obtain ⟨g1, v, g3, rest'⟩ := ga
        simp [matchImgRetina, h1, hws, h2] at h
        obtain ⟨-, hrest⟩ := h
        subst hrest
        obtain ⟨r, hr1, hr2⟩ := searchNoGt_eq_some h2
        cases hq : quotedVal r with
        | none => simp [retinaTail, hq] at hr2
        | some vr =>
          obtain ⟨v', r3⟩ := vr
          cases hg : upToGt r3 with
          | none => simp [retinaTail, hq, hg] at hr2
          | some gr =>
            obtain ⟨g3', rest''⟩ := gr
            simp only [retinaTail, hq, hg, Option.some_inj, Prod.mk.injEq] at hr2
            obtain ⟨-, -, hrr⟩ := hr2
            subst hrr
            have e1 := lit_eq_some h1
            have e2 := (quotedVal_eq_some hq).1
            have e3 := (upToGt_eq_some hg).1
            have hdw : (r1.dropWhile isPyWs).length ≤ r1.length :=
              length_dropWhile_le' _ _
            have hlen := congrArg List.length hr1
            subst e1
            subst e2
            subst e3
            simp [List.length_append] at hlen ⊢
            omega

theorem matchImgDataSrc_shrink : Shrinking matchImgDataSrc := by
  intro s p rest h
  cases h1 : lit "<img".data s with
  | none => simp [matchImgDataSrc, h1] at h
  | some r1 =>
    by_cases hws : (r1.takeWhile isPyWs).isEmpty
    · simp [matchImgDataSrc, h1, hws] at h
    · cases h2 : searchNoGt "data-src=\"".data dataSrcTail (r1.dropWhile isPyWs) with
      | none => simp [matchImgDataSrc, h1, hws, h2] at h
      | some ga =>
        obtain ⟨g1, v, g3, rest'⟩ := ga
        simp [matchImgDataSrc, h1, hws, h2] at h
        obtain ⟨-, hrest⟩ := h
        subst hrest
        obtain ⟨r, hr1, hr2⟩ := searchNoGt_eq_some h2
        cases hq : quotedVal r with
        | none => simp [dataSrcTail, hq] at hr2
        | some vr =>
          obtain ⟨v', r3⟩ := vr
          by_cases hla : occursB "data-src-retina".data (r3.takeWhile (fun c => c != '>'))
          · simp [dataSrcTail, hq, hla] at hr2
          · cases hg : upToGt r3 with
            | none => simp [dataSrcTail, hq, hla, hg] at hr2
            | some gr =>
              obtain ⟨g3', rest''⟩ := gr
              simp [dataSrcTail, hq, hla, hg] at hr2
              obtain ⟨-, -, hrr⟩ := hr2
              subst hrr
              have e1 := lit_eq_some h1
              have e2 := (quotedVal_eq_some hq).1
              have e3 := (upToGt_eq_some hg).1
              have hdw : (r1.dropWhile isPyWs).length ≤ r1.length :=
                length_dropWhile_le' _ _
              have hlen := congrArg List.length hr1
              subst e1
              subst e2
              subst e3
              simp [List.length_append] at hlen ⊢
              omega

theorem matchDocLink_shrink : Shrinking matchDocLink := by
  intro s p rest h
  cases h1 : lit "href=\"documents/".data s with
  | some r =>
    simp only [matchDocLink, h1, Option.some_inj, Prod.mk.injEq] at h
    obtain ⟨-, hrest⟩ := h
    subst hrest
    have e1 := lit_eq_some h1
    subst e1
    simp [List.length_append]
    have : ("href=\"documents/".data).length = 16 := by decide
    omega
  | none =>
    cases h2 : lit "src=\"documents/".data s with
    | none => simp [matchDocLink, h1, h2] at h
    | some r =>
      simp only [matchDocLink, h1, h2, Option.some_inj, Prod.mk.injEq] at h
      obtain ⟨-, hrest⟩ := h
      subst hrest
      have e1 := lit_eq_some h2
      subst e1
      simp [List.length_append]
      have : ("src=\"documents/".data).length = 15 := by decide
      omega

theorem matchMdDocLink_shrink : Shrinking matchMdDocLink := by
  intro s p rest h
  cases s with
  | nil => simp [matchMdDocLink] at h
  | cons c cs =>
    by_cases hc : c = '['
    · subst hc
      by_cases hlab : (cs.takeWhile (fun c => c != ']')).isEmpty
      · simp [matchMdDocLink, hlab] at h
      · cases hd : cs.dropWhile (fun c => c != ']') with
        | nil => simp [matchMdDocLink, hlab, hd] at h
        | cons d ds =>
          by_cases hdq : d = ']'
          · subst hdq
            cases ds with
            | nil => simp [matchMdDocLink, hlab, hd] at h
            | cons e es =>
              by_cases heq : e = '('
              · subst heq
                cases h4 : lit "documents/".data es with
                | none => simp [matchMdDocLink, hlab, hd, h4] at h
                | some rest' =>
                  simp [matchMdDocLink, hlab, hd, h4] at h
                  obtain ⟨-, hrest⟩ := h
                  subst hrest
                  have e4 := lit_eq_some h4
                  have hsplit : cs = cs.takeWhile (fun c => c != ']') ++ (']' :: '(' :: es) := by
                    conv_lhs => rw [← List.takeWhile_append_dropWhile
                      (p := fun c => c != ']') (l := cs)]
                    rw [hd]
                  rw [hsplit, e4]
                  simp [List.length_append]
                  omega
              · simp [matchMdDocLink, hlab, hd, heq] at h
          · simp [matchMdDocLink, hlab, hd, hdq] at h
    · simp [matchMdDocLink, hc] at h

theorem matchImagePath_shrink : Shrinking matchImagePath := by
  intro s p rest h
  cases h1 : lit "src=\"images/".data s with
  | some r =>
    simp only [matchImagePath, h1, Option.some_inj, Prod.mk.injEq] at h
    obtain ⟨-, hrest⟩ := h
    subst hrest
    have e1 := lit_eq_some h1
    subst e1
    simp [List.length_append]
    have : ("src=\"images/".data).length = 12 := by decide
    omega
  | none =>
    cases h2 : lit "href=\"images/".data s with
    | some r =>
      simp only [matchImagePath, h1, h2, Option.some_inj, Prod.mk.injEq] at h
      obtain ⟨-, hrest⟩ := h
      subst hrest
      have e1 := lit_eq_some h2
      subst e1
      simp [List.length_append]
      have : ("href=\"images/".data).length = 13 := by decide
      omega
    | none =>
      cases h3 : lit "data-src-2x=\"images/".data s with
      | none => simp [matchImagePath, h1, h2, h3] at h
      | some r =>
        simp only [matchImagePath, h1, h2, h3, Option.some_inj, Prod.mk.injEq] at h
        obtain ⟨-, hrest⟩ := h
        subst hrest
        have e1 := lit_eq_some h3
        subst e1
        simp [List.length_append]
        have : ("data-src-2x=\"images/".data).length = 20 := by decide
        omega

/-! ## The table translator

`TableParser` of combine.py is a stateful subclass of Python's
`html.parser.HTMLParser`; its three handlers receive a stream of start-tag,
end-tag and text events.  The state and the handlers are transcribed below;
the event stream itself is produced by `tokenize`. -/

/-- Events delivered by the HTML tokenizer to the table parser. -/
inductive HtmlEvent where
  | start (tag : String) (attrs : List (String × String))
  | endtag (tag : String)
  | text (s : String)
deriving DecidableEq

/-- Python's `str.strip` on ASCII whitespace. -/
def pyStrip (l : List Char) : List Char :=
  ((l.dropWhile isPyWs).reverse.dropWhile isPyWs).reverse

/-- Embedding of `str.strip` at the `String` level. -/
def strip (s : String) : String := ⟨pyStrip s.data⟩

/-- Embedding of `re.sub(r'[ \t]+', ' ', ...)`: collapse every maximal run
of spaces and tabs to a single space.  The flag records whether the
previous character belonged to such a run. -/
def collapseSpTab : Bool → List Char → List Char
  | _, [] => []
  | prev, c :: cs =>
    if c = ' ' ∨ c = '\t' then
      if prev then collapseSpTab true cs else ' ' :: collapseSpTab true cs
    else c :: collapseSpTab false cs

/-- String-level wrapper of `collapseSpTab`. -/
def normalizeCellWs (s : String) : String := ⟨collapseSpTab false s.data⟩

/-- Matcher for `re.sub(r'<br>\s*', '<br>', ...)`. -/
def matchBrWs : Matcher := fun s =>
  match lit "<br>".data s with
  | some r => some ("<br>".data, r.dropWhile isPyWs)
  | none => none

theorem matchBrWs_shrink : Shrinking matchBrWs := by
  intro s p rest h
  cases h1 : lit "<br>".data s with
  | none => simp [matchBrWs, h1] at h
  | some r =>
    simp only [matchBrWs, h1, Option.some_inj, Prod.mk.injEq] at h
    obtain ⟨-, hrest⟩ := h
    subst hrest
    have e1 := lit_eq_some h1
    subst e1
    have hd := length_dropWhile_le' isPyWs r
    simp [List.length_append]
    have : ("<br>".data).length = 4 := by decide
    omega

/-- String-level wrapper of the `<br>` whitespace cleanup. -/
def cleanBrWs (s : String) : String := ⟨runSub matchBrWs s.data⟩

/-- Cell text processing of `handle_endtag` for `td`/`th`: strip, the
identity `replace('<br>', '<br>')`, whitespace collapse, `<br>` cleanup. -/
def processCellEnd (cell : String) : String :=
  cleanBrWs (normalizeCellWs (strip cell))

/-- Choice of `src` and `alt` performed by `handle_starttag` for an `img`
tag: one pass over the attributes in order, with `src` and
`data-src-retina` overwriting the current source unconditionally and
`data-src` only doing so when the current source is still empty. -/
def imgChoose (attrs : List (String × String)) : String × String :=
  attrs.foldl
    (fun sa av =>
      if av.1 = "src" then (av.2, sa.2)
      else if av.1 = "data-src-retina" then (av.2, sa.2)
      else if av.1 = "data-src" ∧ sa.1 = "" then (av.2, sa.2)
      else if av.1 = "alt" then (sa.1, av.2)
      else sa)
    ("", "")

/-- Markdown image reference emitted for an in-cell `img` tag. -/
def imgMarkdown (src alt : String) : String :=
  if alt ≠ "" then "![" ++ alt ++ "](" ++ src ++ ")" else "![](" ++ src ++ ")"

/-- State of `TableParser`, one field per Python instance attribute. -/
structure TableParser where
  in_table : Bool := false
  in_thead : Bool := false
  in_tbody : Bool := false
  in_tr : Bool := false
  in_td : Bool := false
  in_th : Bool := false
  current_row : List String := []
  current_cell : String := ""
  headers : List String := []
  rows : List (List String) := []
  markdown_table : String := ""
deriving DecidableEq

/-- Python's `" | ".join` and relatives. -/
def joinSep (sep : String) : List String → String
  | [] => ""
  | [x] => x
  | x :: xs => x ++ sep ++ joinSep sep xs

/-- Padding and truncation of a data row to the header width, as performed
by the `while len(row) < len(headers)` loop and the `row[:len(headers)]`
slice of `_generate_markdown_table`. -/
def padTruncate (width : Nat) (row : List String) : List String :=
  (row ++ List.replicate (width - row.length) "").take width

/-- Lines of the rendered markdown table: header line, separator line, one
line per data row. -/
def generateLines (headers : List String) (rows : List (List String)) : List String :=
  ("| " ++ joinSep " | " headers ++ " |") ::
  ("| " ++ joinSep " | " (List.replicate headers.length "---") ++ " |") ::
  rows.map (fun row => "| " ++ joinSep " | " (padTruncate headers.length row) ++ " |")

/-- Embedding of `TableParser._generate_markdown_table`. -/
def generate_markdown_table (st : TableParser) : TableParser :=
  if st.headers.isEmpty ∧ st.rows.isEmpty then st
  else
    let hr : List String × List (List String) :=
      if st.headers.isEmpty then (st.rows.headD [], st.rows.tail) else (st.headers, st.rows)
    if hr.1.isEmpty then { st with headers := hr.1, rows := hr.2 }
    else
      { st with
        headers := hr.1
        rows := hr.2
        markdown_table := joinSep "\n" (generateLines hr.1 hr.2) }

/-- Embedding of `TableParser.handle_starttag`. -/
def handle_starttag (st : TableParser) (tag : String)
    (attrs : List (String × String)) : TableParser :=
  if tag = "table" then { st with in_table := true, headers := [], rows := [] }
  else if tag = "thead" then { st with in_thead := true }
  else if tag = "tbody" then { st with in_tbody := true }
  else if tag = "tr" then { st with in_tr := true, current_row := [] }
  else if tag = "td" ∨ tag = "th" then
    if tag = "th" then { st with in_th := true, current_cell := "" }
    else { st with in_td := true, current_cell := "" }
  else if tag = "br" then
    if st.in_td ∨ st.in_th then { st with current_cell := st.current_cell ++ "<br>" }
    else st
  else if tag = "img" then
    let sa := imgChoose attrs
    if sa.1 ≠ "" ∧ (st.in_td ∨ st.in_th) then
      { st with current_cell := st.current_cell ++ imgMarkdown sa.1 sa.2 }
    else st
  else st

/-- Embedding of `TableParser.handle_endtag`. -/
def handle_endtag (st : TableParser) (tag : String) : TableParser :=
  if tag = "table" then generate_markdown_table { st with in_table := false }
  else if tag = "thead" then { st with in_thead := false }
  else if tag = "tbody" then { st with in_tbody := false }
  else if tag = "tr" then
    let st := { st with in_tr := false }
    if st.in_thead ∨ (¬ st.in_tbody ∧ st.headers.isEmpty) then
      { st with headers := st.current_row }
    else { st with rows := st.rows ++ [st.current_row] }
  else if tag = "td" ∨ tag = "th" then
    let st := { st with current_row := st.current_row ++ [processCellEnd st.current_cell] }
    if tag = "th" then { st with in_th := false } else { st with in_td := false }
  else st

/-- Embedding of `TableParser.handle_data`. -/
def handle_data (st : TableParser) (s : String) : TableParser :=
  if st.in_td ∨ st.in_th then
    let cleaned := strip s
    if cleaned ≠ "" then { st with current_cell := st.current_cell ++ cleaned }
    else st
  else st

/-- One event dispatched to the corresponding handler. -/
def tableStep (st : TableParser) : HtmlEvent → TableParser
  | .start tag attrs => handle_starttag st tag attrs
  | .endtag tag => handle_endtag st tag
  | .text s => handle_data st s

/-- Feeding a whole event stream to a fresh `TableParser`. -/
def tableFeed (events : List HtmlEvent) : TableParser :=
  events.foldl tableStep {}

/-- Markdown produced for an event stream, empty when parsing captured no
table content. -/
def markdownOfEvents (events : List HtmlEvent) : String :=
  (tableFeed events).markdown_table

/-! ## HTML tokenization

Modelled from the spec: the spec's Table Translator algorithm starts from
"a stream of start/end tags and text"; in the source that stream is
produced by the Python standard library `html.parser.HTMLParser`, which is
not part of this repository.  `tokenize` reproduces its behaviour for the
simple tag and text shapes occurring in this repository's fragments:
start tags with double-quoted, single-quoted, unquoted or missing
attribute values, end tags, and plain character data, with tag and
attribute names lowercased; an unterminated trailing tag stays in the
parser's buffer and yields no event. -/

/-- Characters usable in tag names. -/
def isNameChar (c : Char) : Bool := c.isAlpha || c.isDigit || c == '-'

/-- Characters usable in attribute names. -/
def isAttrNameChar (c : Char) : Bool :=
  !(isPyWs c) && c != '=' && c != '>' && c != '/'

/-- Attribute list parsing inside a start tag; returns the attributes and
the input following the closing `>`, or `none` for an unterminated tag. -/
def parseAttrs : Nat → List Char → Option (List (String × String) × List Char)
  | 0, _ => none
  | n + 1, s =>
    let s1 := s.dropWhile isPyWs
    match s1 with
    | [] => none
    | '>' :: rest => some ([], rest)
    | '/' :: '>' :: rest => some ([], rest)
    | _ =>
      let name := s1.takeWhile isAttrNameChar
      if name.isEmpty then none
      else
        let s2 := (s1.dropWhile isAttrNameChar).dropWhile isPyWs
        match s2 with
        | '=' :: v =>
          let v1 := v.dropWhile isPyWs
          match v1 with
          | '"' :: vr =>
            (match vr.dropWhile (fun c => c != '"') with
             | '"' :: vrest =>
               (parseAttrs n vrest).map (fun ar =>
                 ((⟨name.map Char.toLower⟩, ⟨vr.takeWhile (fun c => c != '"')⟩) :: ar.1,
                  ar.2))
             | _ => none)
          | '\'' :: vr =>
            (match vr.dropWhile (fun c => c != '\'') with
             | '\'' :: vrest =>
               (parseAttrs n vrest).map (fun ar =>
                 ((⟨name.map Char.toLower⟩, ⟨vr.takeWhile (fun c => c != '\'')⟩) :: ar.1,
                  ar.2))
             | _ => none)
          | _ =>
            let bare := v1.takeWhile (fun c => !(isPyWs c) && c != '>')
            (parseAttrs n (v1.dropWhile (fun c => !(isPyWs c) && c != '>'))).map
              (fun ar => ((⟨name.map Char.toLower⟩, ⟨bare⟩) :: ar.1, ar.2))
        | _ =>
          (parseAttrs n s2).map (fun ar =>
            ((⟨name.map Char.toLower⟩, "") :: ar.1, ar.2))

/-- Fuelled tokenizer loop. -/
def tokFuel : Nat → List Char → List HtmlEvent
  | 0, _ => []
  | _ + 1, [] => []
  | n + 1, '<' :: '/' :: r =>
    (match r.dropWhile (fun c => c != '>') with
     | '>' :: rest =>
       HtmlEvent.endtag ⟨(r.takeWhile isNameChar).map Char.toLower⟩ :: tokFuel n rest
     | _ => [])
  | n + 1, '<' :: c :: r =>
    if c.isAlpha then
      let name := (c :: r).takeWhile isNameChar
      match parseAttrs ((c :: r).length) ((c :: r).dropWhile isNameChar) with
      | some (attrs, rest) =>
        HtmlEvent.start ⟨name.map Char.toLower⟩ attrs :: tokFuel n rest
      | none => []
    else
      HtmlEvent.text "<" :: tokFuel n (c :: r)
  | n + 1, s =>
    let d := s.takeWhile (fun c => c != '<')
    if d.isEmpty then
      match s with
      | c :: cs => HtmlEvent.text ⟨[c]⟩ :: tokFuel n cs
      | [] => []
    else
      HtmlEvent.text ⟨d⟩ :: tokFuel n (s.dropWhile (fun c => c != '<'))

/-- Tokenization of a fragment into parser events. -/
def tokenize (s : String) : List HtmlEvent := tokFuel s.data.length s.data

/-- First-occurrence splitter for a literal: `findLit p s = some (a, b)`
when `s = a ++ p ++ b` with `a` shortest. -/
def findLit (pat : List Char) : List Char → Option (List Char × List Char)
  | [] =>
    (match lit pat [] with
     | some r => some ([], r)
     | none => none)
  | c :: cs =>
    match lit pat (c :: cs) with
    | some r => some ([], r)
    | none => (findLit pat cs).map (fun pr => (c :: pr.1, pr.2))

theorem findLit_eq_some {pat s a b : List Char} (h : findLit pat s = some (a, b)) :
    s = a ++ pat ++ b := by
  induction s generalizing a with
  | nil =>
    cases hl : lit pat [] with
    | some r =>
      simp only [findLit, hl, Option.some_inj, Prod.mk.injEq] at h
      obtain ⟨h1, h2⟩ := h
      subst h1
      subst h2
      simpa using lit_eq_some hl
    | none => simp [findLit, hl] at h
  | cons c cs ih =>
    cases hl : lit pat (c :: cs) with
    | some r =>
      simp only [findLit, hl, Option.some_inj, Prod.mk.injEq] at h
      obtain ⟨h1, h2⟩ := h
      subst h1
      subst h2
      simpa using lit_eq_some hl
    | none =>
      cases hf : findLit pat cs with
      | none => simp [findLit, hl, hf] at h
      | some pr =>
        obtain ⟨a', b'⟩ := pr
        simp only [findLit, hl, hf, Option.map_some', Option.some_inj,
          Prod.mk.injEq] at h
        obtain ⟨h1, h2⟩ := h
        subst h2
        rw [← h1]
        simpa using ih hf

/-- Embedding of the inner `replace_table` function of
`convert_html_tables_to_markdown`: feed the matched fragment to a fresh
`TableParser`; keep the produced markdown padded with newlines, or the
original fragment when none was produced (the same fallback the
`except` clause provides). -/
def replace_table (table_html : String) : String :=
  let md := markdownOfEvents (tokenize table_html)
  if md = "" then table_html else "\n" ++ md ++ "\n"

/-- Matcher for `convert_html_tables_to_markdown`'s outer pattern
`<table[^>]*>.*?</table>` (with `re.DOTALL`), whose replacement is
computed by `replace_table` on the matched fragment. -/
def matchTable : Matcher := fun s =>
  match lit "<table".data s with
  | none => none
  | some r1 =>
    match upToGt r1 with
    | none => none
    | some (g, r2) =>
      match findLit "</table>".data r2 with
      | none => none
      | some (middle, rest) =>
        let frag : List Char :=
          "<table".data ++ g ++ '>' :: middle ++ "</table>".data
        some ((replace_table ⟨frag⟩).data, rest)

theorem matchTable_shrink : Shrinking matchTable := by
  intro s p rest h
  cases h1 : lit "<table".data s with
  | none => simp [matchTable, h1] at h
  | some r1 =>
    cases h2 : upToGt r1 with
    | none => simp [matchTable, h1, h2] at h
    | some gr =>
      obtain ⟨g, r2⟩ := gr
      cases h3 : findLit "</table>".data r2 with
      | none => simp [matchTable, h1, h2, h3] at h
      | some mr =>
        obtain ⟨middle, rest'⟩ := mr
        have e1 := lit_eq_some h1
        have e2 := (upToGt_eq_some h2).1
        have e3 := findLit_eq_some h3
        simp only [matchTable, h1, h2, h3, Option.some_inj, Prod.mk.injEq] at h
        have hrest : rest' = rest := h.2
        subst hrest
        subst e1
        subst e2
        subst e3
        simp [List.length_append]
        omega

/-- Embedding of `convert_html_tables_to_markdown`. -/
def convert_html_tables_to_markdown (content : String) : String :=
  ⟨runSub matchTable content.data⟩

/-! ## The document assembler -/

/-- Lexicographic comparison of character lists by code point; the order
used by Python's `list.sort(key=lambda x: x.name)` on file names. -/
def lexLe : List Char → List Char → Bool
  | [], _ => true
  | _ :: _, [] => false
  | a :: as, b :: bs =>
    if a.toNat < b.toNat then true
    else if b.toNat < a.toNat then false
    else lexLe as bs

theorem lexLe_trans : ∀ a b c, lexLe a b → lexLe b c → lexLe a c := by
  intro a
  induction a with
  | nil => intro b c _ _; rfl
  | cons x xs ih =>
    intro b c hab hbc
    cases b with
    | nil => simp [lexLe] at hab
    | cons y ys =>
      cases c with
      | nil => simp [lexLe] at hbc
      | cons z zs =>
        simp only [lexLe] at hab hbc ⊢
        rcases Nat.lt_trichotomy x.toNat y.toNat with hxy | hxy | hxy
        · rcases Nat.lt_trichotomy y.toNat z.toNat with hyz | hyz | hyz
          · simp [show x.toNat < z.toNat by omega]
          · simp [show x.toNat < z.toNat by omega]
          · simp [show ¬ y.toNat < z.toNat by omega, hyz] at hbc
        · have h1 : ¬ x.toNat < y.toNat := by omega
          have h2 : ¬ y.toNat < x.toNat := by omega
          simp only [if_neg h1, if_neg h2] at hab
          rcases Nat.lt_trichotomy y.toNat z.toNat with hyz | hyz | hyz
          · simp [show x.toNat < z.toNat by omega]
          · have h3 : ¬ y.toNat < z.toNat := by omega
            have h4 : ¬ z.toNat < y.toNat := by omega
            simp only [if_neg h3, if_neg h4] at hbc
            have h5 : ¬ x.toNat < z.toNat := by omega
            have h6 : ¬ z.toNat < x.toNat := by omega
            simp only [if_neg h5, if_neg h6]
            exact ih ys zs hab hbc
          · simp [show ¬ y.toNat < z.toNat by omega, hyz] at hbc
        · simp [show ¬ x.toNat < y.toNat by omega, hxy] at hab

theorem lexLe_total : ∀ a b, lexLe a b ∨ lexLe b a := by
  intro a
  induction a with
  | nil => intro b; left; rfl
  | cons x xs ih =>
    intro b
    cases b with
    | nil => right; rfl
    | cons y ys =>
      simp only [lexLe]
      rcases Nat.lt_trichotomy x.toNat y.toNat with h | h | h
      · left; simp [h]
      · have hxy : ¬ x.toNat < y.toNat := by omega
        have hyx : ¬ y.toNat < x.toNat := by omega
        rcases ih ys with h2 | h2
        · left; simp [hxy, hyx, h2]
        · right; simp [hxy, hyx, h2]
      · right
        have : ¬ y.toNat < x.toNat → False := fun hc => hc h
        simp [h, Nat.lt_asymm h]

/-- Per-fragment transformation pipeline of `combine_markdown_files`, in
the order the source applies the passes: YouTube embeds, retina images,
data-src images, document links, markdown document links, image paths,
markdown document links again, table conversion, whitespace cleanup. -/
def transformContent (content : String) : String :=
  replace_nbsp
    (convert_html_tables_to_markdown
      (process_markdown_document_links
        (process_image_paths
          (process_markdown_document_links
            (process_document_links
              (process_data_src_images
                (process_images
                  (process_youtube_videos content))))))))

/-- Body loop of `combine_markdown_files`: each transformed fragment, with
the separator written after every fragment except the last
(`if i < len(md_files) - 1`). -/
def combineLoop : List (String × String) → String
  | [] => ""
  | [f] => transformContent f.2
  | f :: g :: rest => transformContent f.2 ++ "\n\n---\n\n" ++ combineLoop (g :: rest)

/-- Embedding of `combine_markdown_files` on an explicit list of
`(name, raw text)` fragments standing for the files of the `md` directory.
The fragment named `README.md` is excluded, the remainder sorted by name;
with no fragments left the function prints a message and writes nothing,
modelled as `none`.  File reads are modelled as always succeeding, so the
error-marker branch of the source's `try`/`except` is not taken. -/
def nameLe (a b : String × String) : Prop := lexLe a.1.data b.1.data = true

instance : DecidableRel nameLe := fun a b => instDecidableEqBool (lexLe a.1.data b.1.data) true

def combine_markdown_files (fragments : List (String × String)) : Option String :=
  let md_files := (fragments.filter (fun f => f.1 != "README.md")).insertionSort nameLe
  if md_files.isEmpty then none
  else some ("# Tumult Hype Documentation\n\n" ++ combineLoop md_files)

/-! ## The reference extractor -/

/-- Group character class `[^")\s]` of the extraction pattern. -/
def isGroupChar (c : Char) : Bool := c != '"' && c != ')' && !(isPyWs c)

/-- Backtracking of `[^")]*images/([^")\s]+)`: among the positions
reachable through non-quote, non-parenthesis characters, the latest one
где the literal `images/` is followed by a nonempty run of group
characters wins; this is the greedy-star backtracking order of the Python
engine. -/
def lastImgSegment : List Char → Option (List Char × List Char)
  | [] => none
  | c :: cs =>
    if c = '"' ∨ c = ')' then none
    else
      match lastImgSegment cs with
      | some r => some r
      | none =>
        match lit "images/".data (c :: cs) with
        | some r =>
          let g := r.takeWhile isGroupChar
          if g.isEmpty then none else some (g, r.dropWhile isGroupChar)
        | none => none

/-- Matcher for `extract_used_image_filenames`' pattern
`https://raw\.githubusercontent\.com/[^")]*images/([^")\s]+)`, whose
payload is the captured group. -/
def matchRawUrl : Matcher := fun s =>
  match lit "https://raw.githubusercontent.com/".data s with
  | none => none
  | some r => lastImgSegment r

theorem lastImgSegment_eq_some :
    ∀ {s g rest : List Char}, lastImgSegment s = some (g, rest) →
      ∃ pre, s = pre ++ "images/".data ++ g ++ rest ∧ g ≠ [] := by
  intro s
  induction s with
  | nil => intro g rest h; simp [lastImgSegment] at h
  | cons c cs ih =>
    intro g rest h
    by_cases hc : c = '"' ∨ c = ')'
    · simp [lastImgSegment, hc] at h
    · cases hrec : lastImgSegment cs with
      | some r =>
        simp only [lastImgSegment, hc, if_false, hrec, Option.some_inj] at h
        obtain ⟨pre, hp, hg⟩ := ih (h ▸ hrec)
        exact ⟨c :: pre, by simp [hp], hg⟩
      | none =>
        cases hl : lit "images/".data (c :: cs) with
        | none => simp [lastImgSegment, hc, hrec, hl] at h
        | some r =>
          by_cases he : (r.takeWhile isGroupChar).isEmpty
          · simp [lastImgSegment, hc, hrec, hl, he] at h
          · have hval : lastImgSegment (c :: cs) =
                some (r.takeWhile isGroupChar, r.dropWhile isGroupChar) := by
              simp [lastImgSegment, hc, hrec, hl, he]
            have h12 := Option.some_inj.mp (h.symm.trans hval)
            have h1 : g = r.takeWhile isGroupChar := congrArg Prod.fst h12
            have h2 : rest = r.dropWhile isGroupChar := congrArg Prod.snd h12
            refine ⟨[], ?_, ?_⟩
            · have hlit := lit_eq_some hl
              rw [List.nil_append, hlit, h1, h2]
              simp [List.takeWhile_append_dropWhile]
            · rw [h1]
              simpa [List.isEmpty_iff] using he

theorem matchRawUrl_shrink : Shrinking matchRawUrl := by
  intro s p rest h
  cases h1 : lit "https://raw.githubusercontent.com/".data s with
  | none => simp [matchRawUrl, h1] at h
  | some r =>
    simp only [matchRawUrl, h1] at h
    obtain ⟨pre, hp, hg⟩ := lastImgSegment_eq_some h
    have e1 := lit_eq_some h1
    subst e1
    rw [hp]
    have h7 : ("images/".data).length = 7 := by decide
    simp only [List.length_append, h7]
    omega

/-- Python's `str.split` on a single character. -/
def splitOn (sep : Char) : List Char → List (List Char)
  | [] => [[]]
  | c :: cs =>
    let r := splitOn sep cs
    if c = sep then [] :: r
    else
      match r with
      | [] => [[c]]
      | h :: t => (c :: h) :: t

/-- Final path segment of a captured group, as computed by
`match.split('/')[-1] if '/' in match else match`. -/
def lastSegment (g : List Char) : List Char :=
  if g.contains '/' then (splitOn '/' g).getLastD [] else g

/-- Embedding of `extract_used_image_filenames`: the set of final path
segments of all captured groups. -/
def extract_used_image_filenames (content : String) : Finset String :=
  ((runFind matchRawUrl content.data).map
    (fun g => (⟨lastSegment g⟩ : String))).toFinset

/-! ## The asset reconciler -/

/-- Embedding of `find_unused_files`. -/
def find_unused_files (used_images all_files : Finset String) : Finset String :=
  all_files \ used_images

/-- Outcome of one `cleanup_unused_images` run. -/
structure CleanupResult where
  unused_files : Finset String
  deleted : Finset String
  remaining : Finset String
  result : Bool
deriving DecidableEq

/-- Embedding of `cleanup_unused_images` over the reference set and the
directory inventory.  `auto_delete` mirrors the parameter of the source;
`interactive_response` stands for the console confirmation read in
interactive mode.  Deletions are modelled as succeeding, so `deleted` is
the whole unused set whenever the effective response is yes.  The returned
flag is the source's `return len(unused_files) == 0`, computed from the
unused set established before any deletion. -/
def cleanup_unused_images (used_images all_files : Finset String)
    (auto_delete : Bool) (interactive_response : Bool) : CleanupResult :=
  let unused_files := find_unused_files used_images all_files
  if unused_files.Nonempty then
    let response := if auto_delete then true else interactive_response
    let deleted := if response then unused_files else ∅
    { unused_files := unused_files
      deleted := deleted
      remaining := all_files \ deleted
      result := decide (unused_files.card = 0) }
  else
    { unused_files := unused_files
      deleted := ∅
      remaining := all_files
      result := decide (unused_files.card = 0) }

/-! ## Auxiliary list lemmas -/

theorem takeWhile_append_all {p : Char → Bool} {l : List Char} (h : ∀ a ∈ l, p a)
    (l' : List Char) : (l ++ l').takeWhile p = l ++ l'.takeWhile p := by
  induction l with
  | nil => simp
  | cons c cs ih =>
    have hc : p c := h c (List.mem_cons_self c cs)
    simp only [List.cons_append, List.takeWhile_cons, hc, if_true]
    rw [ih fun a ha => h a (List.mem_cons_of_mem c ha)]

theorem dropWhile_append_all {p : Char → Bool} {l : List Char} (h : ∀ a ∈ l, p a)
    (l' : List Char) : (l ++ l').dropWhile p = l'.dropWhile p := by
  induction l with
  | nil => simp
  | cons c cs ih =>
    have hc : p c := h c (List.mem_cons_self c cs)
    simp only [List.cons_append, List.dropWhile_cons, hc, if_true]
    exact ih fun a ha => h a (List.mem_cons_of_mem c ha)

theorem occursIn_append_right {p s : List Char} (t : List Char) (h : OccursIn p s) :
    OccursIn p (s ++ t) := by
  obtain ⟨a, b, rfl⟩ := h
  exact ⟨a, b ++ t, by simp⟩

theorem occursIn_trans {a b c : List Char} (h1 : OccursIn a b) (h2 : OccursIn b c) :
    OccursIn a c := by
  obtain ⟨x, y, rfl⟩ := h1
  obtain ⟨u, v, rfl⟩ := h2
  exact ⟨u ++ x, y ++ v, by simp⟩

theorem occursIn_self (p : List Char) : OccursIn p p := ⟨[], [], by simp⟩

theorem mem_joinSep {c : Char} {sep : String} :
    ∀ {parts : List String}, c ∈ (joinSep sep parts).data →
      c ∈ sep.data ∨ ∃ p ∈ parts, c ∈ p.data := by
  intro parts
  induction parts with
  | nil => intro h; simp [joinSep] at h
  | cons x xs ih =>
    intro h
    cases xs with
    | nil =>
      right
      exact ⟨x, by simp, by simpa [joinSep] using h⟩
    | cons y ys =>
      simp only [joinSep, String.data_append, List.mem_append] at h
      rcases h with (h | h) | h
      · right; exact ⟨x, by simp, h⟩
      · left; exact h
      · rcases ih h with h' | ⟨p, hp, hc⟩
        · left; exact h'
        · right; exact ⟨p, by simp [hp], hc⟩

theorem occursIn_joinSep {x sep : String} :
    ∀ {parts : List String}, x ∈ parts → OccursIn x.data (joinSep sep parts).data := by
  intro parts
  induction parts with
  | nil => intro h; simp at h
  | cons y ys ih =>
    intro h
    rcases List.mem_cons.mp h with rfl | h'
    · cases ys with
      | nil => exact occursIn_self _
      | cons z zs =>
        simp only [joinSep, String.data_append]
        rw [List.append_assoc]
        exact occursIn_append_right _ (occursIn_self _)
    · cases ys with
      | nil => simp at h'
      | cons z zs =>
        simp only [joinSep, String.data_append]
        rw [List.append_assoc]
        exact occursIn_append_left _ (occursIn_append_left _ (ih h'))

theorem splitOn_no_sep {sep : Char} : ∀ {l : List Char}, sep ∉ l → splitOn sep l = [l] := by
  intro l
  induction l with
  | nil => intro _; rfl
  | cons c cs ih =>
    intro h
    have hc : c ≠ sep := fun hcc => h (hcc ▸ List.mem_cons_self c cs)
    have hcs : sep ∉ cs := fun hm => h (List.mem_cons_of_mem c hm)
    simp [splitOn, hc, ih hcs]

theorem splitOn_append_sep {sep : Char} {b : List Char} :
    ∀ {a : List Char}, sep ∉ a → splitOn sep (a ++ sep :: b) = a :: splitOn sep b := by
  intro a
  induction a with
  | nil => intro _; simp [splitOn]
  | cons c cs ih =>
    intro h
    have hc : c ≠ sep := fun hcc => h (hcc ▸ List.mem_cons_self c cs)
    have hcs : sep ∉ cs := fun hm => h (List.mem_cons_of_mem c hm)
    simp only [List.cons_append, splitOn, hc, if_false, List.append_eq]
    rw [ih hcs]

theorem splitOn_joinSep :
    ∀ {parts : List String}, parts ≠ [] → (∀ p ∈ parts, '\n' ∉ p.data) →
      splitOn '\n' (joinSep "\n" parts).data = parts.map String.data := by
  intro parts
  induction parts with
  | nil => intro h _; exact absurd rfl h
  | cons x xs ih =>
    intro _ h
    cases xs with
    | nil => simp [joinSep, splitOn_no_sep (h x (by simp))]
    | cons y ys =>
      have hx : '\n' ∉ x.data := h x (by simp)
      have hj : (joinSep "\n" (x :: y :: ys)).data
          = x.data ++ '\n' :: (joinSep "\n" (y :: ys)).data := by
        show (x ++ "\n" ++ joinSep "\n" (y :: ys)).data = _
        simp
      rw [hj, splitOn_append_sep hx, ih (by simp) fun p hp => h p (by simp [hp])]
      simp

theorem padTruncate_length (width : Nat) (row : List String) :
    (padTruncate width row).length = width := by
  simp [padTruncate, List.length_take, List.length_append, List.length_replicate]
  omega

/-! ## Claim theorems -/

/-- Claim C9: the Asset Reconciler computes the unused set as exactly the
inventory minus the reference set, returns `true` iff that set — computed
before any deletion — is empty, and with auto-delete policy on a nonempty
unused set it deletes exactly the unused files and still returns `false`. -/
theorem C9_reconciler (used_images all_files : Finset String)
    (auto_delete interactive_response : Bool) :
    (cleanup_unused_images used_images all_files auto_delete interactive_response).unused_files
      = all_files \ used_images ∧
    ((cleanup_unused_images used_images all_files auto_delete interactive_response).result = true
      ↔ all_files \ used_images = ∅) ∧
    (auto_delete = true → all_files \ used_images ≠ ∅ →
      (cleanup_unused_images used_images all_files auto_delete
        interactive_response).deleted = all_files \ used_images ∧
      (cleanup_unused_images used_images all_files auto_delete
        interactive_response).remaining = all_files \ (all_files \ used_images) ∧
      (cleanup_unused_images used_images all_files auto_delete
        interactive_response).result = false) := by
  refine ⟨?_, ?_, ?_⟩
  · by_cases h : (all_files \ used_images).Nonempty <;>
      simp [cleanup_unused_images, find_unused_files, h]
  · by_cases h : (all_files \ used_images).Nonempty <;>
      simp [cleanup_unused_images, find_unused_files, Finset.card_eq_zero,
        Finset.sdiff_eq_empty_iff_subset, h]
  · intro ha hne
    have h : (all_files \ used_images).Nonempty := Finset.nonempty_iff_ne_empty.mpr hne
    subst ha
    refine ⟨?_, ?_, ?_⟩ <;>
      simp [cleanup_unused_images, find_unused_files, h, Finset.card_eq_zero,
        Finset.sdiff_eq_empty_iff_subset, Finset.nonempty_iff_ne_empty.mp h]

/-- Witness for C9 at the spec's own example: inventory
`{a.png, b.png, c.png}`, references `{a.png}`, auto-delete. -/
theorem C9_reconciler_witness :
    (cleanup_unused_images {"a.png"} {"a.png", "b.png", "c.png"} true true).unused_files
      = {"b.png", "c.png"} ∧
    (cleanup_unused_images {"a.png"} {"a.png", "b.png", "c.png"} true true).deleted
      = {"b.png", "c.png"} ∧
    (cleanup_unused_images {"a.png"} {"a.png", "b.png", "c.png"} true true).result = false ∧
    (cleanup_unused_images {"a.png"} {"a.png"} true true).result = true := by
  have h1 := C9_reconciler {"a.png"} {"a.png", "b.png", "c.png"} true true
  have h2 := C9_reconciler {"a.png"} {"a.png"} true true
  refine ⟨?_, ?_, ?_, ?_⟩
  · rw [h1.1]; decide
  · rw [(h1.2.2 rfl (by decide)).1]; decide
  · exact (h1.2.2 rfl (by decide)).2.2
  · exact h2.2.1.mpr (by decide)

/-- Claim C4: for a header of `H` cells and `N` data rows the rendered
markdown table consists of exactly `N + 2` lines — header line, separator
line of `H` `---` cells, and one line per data row, each padded or
truncated to exactly `H` cells; when no cell contains a newline the
rendered string splits on newlines into exactly those `N + 2` lines. -/
theorem C4_table_shape (headers : List String) (rows : List (List String))
    (hne : headers ≠ [])
    (hnl : ∀ c ∈ headers, '\n' ∉ c.data)
    (hnl2 : ∀ row ∈ rows, ∀ c ∈ row, '\n' ∉ c.data) :
    (generate_markdown_table { headers := headers, rows := rows }).markdown_table
      = joinSep "\n" (generateLines headers rows) ∧
    (generateLines headers rows).length = rows.length + 2 ∧
    generateLines headers rows =
      ("| " ++ joinSep " | " headers ++ " |") ::
      ("| " ++ joinSep " | " (List.replicate headers.length "---") ++ " |") ::
      rows.map (fun row => "| " ++ joinSep " | " (padTruncate headers.length row) ++ " |") ∧
    (∀ row ∈ rows, (padTruncate headers.length row).length = headers.length) ∧
    splitOn '\n' (joinSep "\n" (generateLines headers rows)).data
      = (generateLines headers rows).map String.data := by
  have hemp : ¬ headers.isEmpty := by simpa [List.isEmpty_iff] using hne
  refine ⟨?_, ?_, rfl, ?_, ?_⟩
  · simp [generate_markdown_table, hemp, List.isEmpty_iff]
  · simp [generateLines]
  · intro row _
    exact padTruncate_length _ _
  · refine splitOn_joinSep (by simp [generateLines]) ?_
    intro p hp
    have hline : ∀ cells : List String, (∀ c ∈ cells, '\n' ∉ c.data) →
        '\n' ∉ ("| " ++ joinSep " | " cells ++ " |").data := by
      intro cells hcells hc
      simp only [String.data_append, List.mem_append] at hc
      rcases hc with (hc | hc) | hc
      · simp at hc
      · rcases mem_joinSep hc with h' | ⟨q, hq, hcq⟩
        · simp at h'
        · exact hcells q hq hcq
      · simp at hc
    simp only [generateLines, List.mem_cons, List.mem_map] at hp
    rcases hp with rfl | rfl | ⟨row, hrow, rfl⟩
    · exact hline headers hnl
    · refine hline _ ?_
      intro c hc
      rcases List.eq_of_mem_replicate hc with rfl
      simp
    · refine hline _ ?_
      intro c hc
      have hc' : c ∈ row ++ List.replicate (headers.length - row.length) "" :=
        List.mem_of_mem_take hc
      rcases List.mem_append.mp hc' with h' | h'
      · exact hnl2 row hrow c h'
      · rcases List.eq_of_mem_replicate h' with rfl
        simp

/-- Witness for C4 at a concrete table: header width 1, two data rows of
widths 1 and 2. -/
theorem C4_table_shape_witness :
    (generateLines ["H"] [["a"], ["b", "c"]]).length = [["a"], ["b", "c"]].length + 2 ∧
    (∀ row ∈ [["a"], ["b", "c"]], (padTruncate (["H"] : List String).length row).length
      = (["H"] : List String).length) :=
  have h := C4_table_shape ["H"] [["a"], ["b", "c"]] (by decide) (by decide) (by decide)
  ⟨h.2.1, h.2.2.2.1⟩

/-- Claim C5: table translation is fail-soft.  In this embedding every
function is total, so no input can raise; a fragment whose parse produces
no markdown is handed back unchanged by `replace_table`, and on the two
malformed inputs of the spec — a table with an unterminated row and a
fragment with no closing `</table>` at all — the whole conversion is the
identity. -/
theorem C5_table_failsoft (frag : String)
    (h : markdownOfEvents (tokenize frag) = "") :
    replace_table frag = frag ∧
    convert_html_tables_to_markdown "<table><tr><td>x</table>"
      = "<table><tr><td>x</table>" ∧
    convert_html_tables_to_markdown "a<table><tr>b" = "a<table><tr>b" := by
  refine ⟨?_, by decide, by decide⟩
  simp [replace_table, h]

/-- Witness for C5: the unterminated-`<tr>` fragment itself parses to no
markdown and is returned unchanged. -/
theorem C5_table_failsoft_witness :
    replace_table "<table><tr><td>x</table>" = "<table><tr><td>x</table>" :=
  (C5_table_failsoft "<table><tr><td>x</table>" (by decide)).1

/-- Counterexample to claim C2: the in-cell image source selection is not
the fixed preference order for every attribute order — a literal `src`
attribute appearing after `data-src-retina` overwrites the retina value,
so the tag `<img data-src-retina="r.png" src="s.png">` inside a cell is
rendered with `s.png`, not `r.png`. -/
theorem C2_counterexample :
    (handle_starttag { in_td := true } "img"
      [("data-src-retina", "r.png"), ("src", "s.png")]).current_cell = "![](s.png)" ∧
    (imgChoose [("data-src-retina", "r.png"), ("src", "s.png")]).1 ≠ "r.png" := by
  decide

/-- Claim C2 as amended: scanning the attributes in order, `src` and
`data-src-retina` each overwrite the current source and `data-src` only
fills an empty one, so `data-src-retina` is preferred over `data-src` for
every attribute order, and the claimed order `data-src-retina`, then
`data-src`, then `src` holds exactly when `src` does not appear after
`data-src-retina`; when it does, the `src` value wins.  The `alt` value is
used when present, else the empty string, and a cell-local image tag with
a nonempty chosen source appends the markdown image reference to the
current cell. -/
theorem C2_amended (r s d a : String) (hr : r ≠ "") (hs : s ≠ "") :
    imgChoose [("src", s), ("data-src-retina", r), ("data-src", d), ("alt", a)] = (r, a) ∧
    imgChoose [("src", s), ("data-src", d), ("data-src-retina", r), ("alt", a)] = (r, a) ∧
    imgChoose [("data-src", d), ("src", s), ("data-src-retina", r), ("alt", a)] = (r, a) ∧
    imgChoose [("data-src-retina", r), ("src", s), ("data-src", d), ("alt", a)] = (s, a) ∧
    imgChoose [("data-src-retina", r), ("data-src", d), ("src", s), ("alt", a)] = (s, a) ∧
    imgChoose [("data-src", d), ("data-src-retina", r), ("src", s), ("alt", a)] = (s, a) ∧
    (∀ (st : TableParser) (attrs : List (String × String)),
      (st.in_td ∨ st.in_th) → (imgChoose attrs).1 ≠ "" →
      (handle_starttag st "img" attrs).current_cell
        = st.current_cell ++ imgMarkdown (imgChoose attrs).1 (imgChoose attrs).2) := by
  refine ⟨?_, ?_, ?_, ?_, ?_, ?_, ?_⟩
  · simp [imgChoose, hr, hs]
  · simp [imgChoose, hr, hs]
  · simp [imgChoose, hr, hs]
  · simp [imgChoose, hr, hs]
  · simp [imgChoose, hr, hs]
  · simp [imgChoose, hr, hs]
  · intro st attrs hcell hsrc
    simp [handle_starttag, hcell, hsrc]

/-- Witness for C2's amended claim at concrete attribute values. -/
theorem C2_amended_witness :
    imgChoose [("src", "s.png"), ("data-src-retina", "r.png"), ("data-src", "d.png"),
      ("alt", "t")] = ("r.png", "t") ∧
    imgChoose [("data-src-retina", "r.png"), ("src", "s.png"), ("data-src", "d.png"),
      ("alt", "t")] = ("s.png", "t") :=
  have h := C2_amended "r.png" "s.png" "d.png" "t" (by decide) (by decide)
  ⟨h.1, h.2.2.2.1⟩

/-- Counterexample to claim C1: in the assembled document for the spec's
two fragments the markdown image reference `images/a.png` is never
rewritten to the absolute raw-content URL — the image-path pass only
rewrites `src="`, `href="` and `data-src-2x="` attribute values — and the
Reference Extractor therefore returns the empty set, not `{"a.png"}`. -/
theorem C1_counterexample :
    combine_markdown_files [("a.md", "# A\n![x](images/a.png)"),
      ("b.md", "# B\n<div class=\"js-lazyYT\" data-youtube-id=\"abc123\">Loading...</div>")]
      = some "# Tumult Hype Documentation\n\n# A\n![x](images/a.png)\n\n---\n\n# B\n[![YouTube Video Thumbnail](https://img.youtube.com/vi/abc123/0.jpg)](https://www.youtube.com/watch?v=abc123)" ∧
    extract_used_image_filenames "# Tumult Hype Documentation\n\n# A\n![x](images/a.png)\n\n---\n\n# B\n[![YouTube Video Thumbnail](https://img.youtube.com/vi/abc123/0.jpg)](https://www.youtube.com/watch?v=abc123)" = ∅ ∧
    (∅ : Finset String) ≠ {"a.png"} ∧
    ¬ OccursIn "https://raw.githubusercontent.com/tumult/hype-documentation/refs/heads/main/images/a.png".data
      ("# Tumult Hype Documentation\n\n# A\n![x](images/a.png)\n\n---\n\n# B\n[![YouTube Video Thumbnail](https://img.youtube.com/vi/abc123/0.jpg)](https://www.youtube.com/watch?v=abc123)" : String).data := by
  decide

/-- Claim C1 as amended: assembling the two fragments yields a document
that starts with the fixed title line and a blank line, contains the
markdown image reference `images/a.png` unrewritten, contains the `---`
separator, contains the thumbnail-link compound for `abc123`, and the
Reference Extractor on it returns the empty set. -/
theorem C1_amended :
    combine_markdown_files [("a.md", "# A\n![x](images/a.png)"),
      ("b.md", "# B\n<div class=\"js-lazyYT\" data-youtube-id=\"abc123\">Loading...</div>")]
      = some ("# Tumult Hype Documentation\n\n"
          ++ "# A\n![x](images/a.png)\n\n---\n\n# B\n[![YouTube Video Thumbnail](https://img.youtube.com/vi/abc123/0.jpg)](https://www.youtube.com/watch?v=abc123)") ∧
    OccursIn "![x](images/a.png)".data
      ("# Tumult Hype Documentation\n\n# A\n![x](images/a.png)\n\n---\n\n# B\n[![YouTube Video Thumbnail](https://img.youtube.com/vi/abc123/0.jpg)](https://www.youtube.com/watch?v=abc123)" : String).data ∧
    OccursIn "\n\n---\n\n".data
      ("# Tumult Hype Documentation\n\n# A\n![x](images/a.png)\n\n---\n\n# B\n[![YouTube Video Thumbnail](https://img.youtube.com/vi/abc123/0.jpg)](https://www.youtube.com/watch?v=abc123)" : String).data ∧
    OccursIn "[![YouTube Video Thumbnail](https://img.youtube.com/vi/abc123/0.jpg)](https://www.youtube.com/watch?v=abc123)".data
      ("# Tumult Hype Documentation\n\n# A\n![x](images/a.png)\n\n---\n\n# B\n[![YouTube Video Thumbnail](https://img.youtube.com/vi/abc123/0.jpg)](https://www.youtube.com/watch?v=abc123)" : String).data ∧
    extract_used_image_filenames "# Tumult Hype Documentation\n\n# A\n![x](images/a.png)\n\n---\n\n# B\n[![YouTube Video Thumbnail](https://img.youtube.com/vi/abc123/0.jpg)](https://www.youtube.com/watch?v=abc123)" = ∅ := by
  decide

instance : IsTrans (String × String) nameLe :=
  ⟨fun _ _ _ hab hbc => lexLe_trans _ _ _ hab hbc⟩

instance : IsTotal (String × String) nameLe :=
  ⟨fun a b => lexLe_total a.1.data b.1.data⟩

theorem combineLoop_eq_joinSep :
    ∀ files : List (String × String),
      combineLoop files = joinSep "\n\n---\n\n" (files.map (fun f => transformContent f.2)) := by
  intro files
  induction files with
  | nil => rfl
  | cons f rest ih =>
    cases rest with
    | nil => rfl
    | cons g t =>
      simp only [combineLoop, List.map_cons, joinSep, ih]

/-- Claim C8: the assembled document starts with the fixed title line
followed by a blank line; the fragments processed are exactly those not
named `README.md`, in lexicographic order of their names; and the fixed
separator stands between consecutive fragments and never after the last
(the `joinSep` form places it exactly between elements). -/
theorem C8_assembler (fragments : List (String × String))
    (h : (fragments.filter (fun f => f.1 != "README.md")).insertionSort nameLe ≠ []) :
    combine_markdown_files fragments
      = some ("# Tumult Hype Documentation\n\n"
          ++ joinSep "\n\n---\n\n"
            (((fragments.filter (fun f => f.1 != "README.md")).insertionSort nameLe).map
              (fun f => transformContent f.2))) ∧
    List.Sorted nameLe ((fragments.filter (fun f => f.1 != "README.md")).insertionSort nameLe) ∧
    ((fragments.filter (fun f => f.1 != "README.md")).insertionSort nameLe).Perm
      (fragments.filter (fun f => f.1 != "README.md")) ∧
    (∀ f ∈ (fragments.filter (fun f => f.1 != "README.md")).insertionSort nameLe,
      f.1 ≠ "README.md") := by
  refine ⟨?_, ?_, ?_, ?_⟩
  · have hne : ¬ ((fragments.filter (fun f => f.1 != "README.md")).insertionSort
        nameLe).isEmpty := by
      simpa [List.isEmpty_iff] using h
    simp only [combine_markdown_files, hne, if_false, Bool.false_eq_true,
      combineLoop_eq_joinSep]
  · exact List.sorted_insertionSort nameLe _
  · exact List.perm_insertionSort nameLe _
  · intro f hf
    have hmem : f ∈ fragments.filter (fun f => f.1 != "README.md") :=
      (List.perm_insertionSort nameLe _).mem_iff.mp hf
    have := List.of_mem_filter hmem
    simpa using this

/-- Witness for C8: three fragments, one of them the output file, given
out of order. -/
theorem C8_assembler_witness :
    combine_markdown_files [("b.md", "B"), ("a.md", "A"), ("README.md", "x")]
      = some "# Tumult Hype Documentation\n\nA\n\n---\n\nB" :=
  (C8_assembler [("b.md", "B"), ("a.md", "A"), ("README.md", "x")] (by decide)).1.trans
    (by decide)

/-! ## Idempotence of the markdown document-link pass (claim C7) -/

theorem matchMdDocLink_nil : matchMdDocLink [] = none := rfl

theorem matchMdDocLink_head {c : Char} {cs : List Char} (hc : c ≠ '[') :
    matchMdDocLink (c :: cs) = none := by
  simp [matchMdDocLink, hc]

theorem matchMdDocLink_eq_some {s p rest : List Char}
    (h : matchMdDocLink s = some (p, rest)) :
    ∃ lab, s = '[' :: lab ++ ']' :: '(' :: ("documents/".data ++ rest) ∧
      p = '[' :: lab ++ ']' :: '(' :: docBase ∧ lab ≠ [] ∧ ']' ∉ lab := by
  cases s with
  | nil => simp [matchMdDocLink] at h
  | cons c cs =>
    by_cases hc : c = '['
    · subst hc
      by_cases hlab : (cs.takeWhile (fun c => c != ']')).isEmpty
      · simp [matchMdDocLink, hlab] at h
      · cases hd : cs.dropWhile (fun c => c != ']') with
        | nil => simp [matchMdDocLink, hlab, hd] at h
        | cons d ds =>
          have hdq : d = ']' := by
            have := List.head_dropWhile_not (p := fun c => c != ']') (l := cs)
              (by simp [hd])
            simpa [hd] using this
          subst hdq
          cases ds with
          | nil => simp [matchMdDocLink, hlab, hd] at h
          | cons e es =>
            by_cases heq : e = '('
            · subst heq
              cases h4 : lit "documents/".data es with
              | none => simp [matchMdDocLink, hlab, hd, h4] at h
              | some rest' =>
                have hval : matchMdDocLink ('[' :: cs)
                    = some ('[' :: cs.takeWhile (fun c => c != ']')
                        ++ "](".data ++ docBase, rest') := by
                  simp [matchMdDocLink, hlab, hd, h4]
                have h12 := Option.some_inj.mp (h.symm.trans hval)
                have h1 : p = '[' :: cs.takeWhile (fun c => c != ']')
                    ++ "](".data ++ docBase := congrArg Prod.fst h12
                have h2 : rest = rest' := congrArg Prod.snd h12
                refine ⟨cs.takeWhile (fun c => c != ']'), ?_, ?_, ?_, ?_⟩
                · have hsplit : cs = cs.takeWhile (fun c => c != ']')
                      ++ (']' :: '(' :: es) := by
                    conv_lhs => rw [← List.takeWhile_append_dropWhile
                      (p := fun c => c != ']') (l := cs)]
                    rw [hd]
                  conv_lhs => rw [hsplit]
                  rw [lit_eq_some h4, h2]
                  simp
                · rw [h1]
                  simp
                · simpa [List.isEmpty_iff] using hlab
                · intro hmem
                  have := List.mem_takeWhile_imp hmem
                  simp at this
            · simp [matchMdDocLink, hlab, hd, heq] at h
    · simp [matchMdDocLink, hc] at h

theorem matchMdDocLink_some_has_rbracket {s p rest : List Char}
    (h : matchMdDocLink s = some (p, rest)) : ']' ∈ s := by
  obtain ⟨lab, hs, -, -, -⟩ := matchMdDocLink_eq_some h
  rw [hs]
  simp

theorem runSub_mdDoc_id_of_no_rbracket {s : List Char} (h : ']' ∉ s) :
    runSub matchMdDocLink s = s := by
  refine runSub_id s ?_
  intro c cs hsuf
  cases hm : matchMdDocLink (c :: cs) with
  | none => rfl
  | some pr =>
    exfalso
    obtain ⟨p, rest⟩ := pr
    have hr := matchMdDocLink_some_has_rbracket hm
    exact h (hsuf.subset hr)

theorem lit_none_transfer {p : List Char} (hp : '[' ∉ p) :
    ∀ r, lit p r = none → lit p (runSub matchMdDocLink r) = none := by
  induction p with
  | nil => intro r h; simp [lit] at h
  | cons x ps ih =>
    intro r h
    cases r with
    | nil => simpa [runSub_nil] using h
    | cons c cs =>
      by_cases hcx : c = x
      · subst hcx
        have hlit : lit ps cs = none := by
          simpa [lit] using h
        have hcb : c ≠ '[' := fun hc => hp (hc ▸ List.mem_cons_self c ps)
        rw [runSub_nomatch (matchMdDocLink_head hcb)]
        have := ih (fun hm => hp (List.mem_cons_of_mem c hm)) cs hlit
        simpa [lit] using this
      · cases hm : matchMdDocLink (c :: cs) with
        | none =>
          rw [runSub_nomatch hm]
          simp [lit, hcx]
        | some pr =>
          obtain ⟨q, rest⟩ := pr
          rw [runSub_match matchMdDocLink_shrink hm]
          obtain ⟨lab, -, hq, -, -⟩ := matchMdDocLink_eq_some hm
          have hxb : x ≠ '[' := fun hc => hp (hc ▸ List.mem_cons_self x ps)
          have hne : ¬ ('[' = x) := fun hc => hxb hc.symm
          rw [hq]
          simp [lit, hne]

theorem suffix_append_cases {b : List Char} :
    ∀ {a s : List Char}, s <:+ a ++ b →
      s <:+ b ∨ ∃ a', a' <:+ a ∧ a' ≠ [] ∧ s = a' ++ b := by
  intro a
  induction a with
  | nil =>
    intro s h
    left
    simpa using h
  | cons c cs ih =>
    intro s h
    obtain ⟨t, ht⟩ := h
    cases t with
    | nil =>
      right
      exact ⟨c :: cs, List.suffix_refl _, by simp, by simpa using ht⟩
    | cons d ds =>
      have ht' : ds ++ s = cs ++ b := by
        have := congrArg List.tail ht
        simpa using this
      rcases ih ⟨ds, ht'⟩ with h1 | ⟨a', ha1, ha2, ha3⟩
      · left
        exact h1
      · right
        exact ⟨a', ha1.trans (List.suffix_cons c cs), ha2, ha3⟩

theorem docBase_no_lbracket : '[' ∉ docBase := by decide

theorem lit_documents_docBase (X : List Char) :
    lit "documents/".data (docBase ++ X) = none := rfl

theorem no_rbracket_of_dropWhile_nil {cs : List Char}
    (h : cs.dropWhile (fun c => c != ']') = []) : ']' ∉ cs := by
  intro hmem
  have hcs : cs = cs.takeWhile (fun c => c != ']') := by
    conv_lhs => rw [← List.takeWhile_append_dropWhile (p := fun c => c != ']') (l := cs)]
    rw [h]
    simp
  rw [hcs] at hmem
  have := List.mem_takeWhile_imp hmem
  simp at this

/-- Failure of the markdown document-link pattern at a position whose label
region contains no `]` and whose text after `](` does not begin with the
literal `documents/`. -/
theorem matchMdDocLink_fail_at {cs₂ ds : List Char} (hcs : ']' ∉ cs₂)
    (hC : ∀ r2, ds = '(' :: r2 → lit "documents/".data r2 = none) (c : Char) :
    matchMdDocLink (c :: (cs₂ ++ ']' :: ds)) = none := by
  by_cases hc : c = '['
  · subst hc
    have hall : ∀ a ∈ cs₂, (a != ']') = true := by
      intro a ha
      simp only [bne_iff_ne, ne_eq]
      intro he
      exact hcs (he ▸ ha)
    have htw : (cs₂ ++ ']' :: ds).takeWhile (fun c => c != ']') = cs₂ := by
      rw [takeWhile_append_all hall _]
      simp
    have hdw : (cs₂ ++ ']' :: ds).dropWhile (fun c => c != ']') = ']' :: ds := by
      rw [dropWhile_append_all hall _]
      simp
    by_cases hE : cs₂.isEmpty
    · simp [matchMdDocLink, htw, hE]
    · cases ds with
      | nil => simp [matchMdDocLink, htw, hdw, hE]
      | cons d0 ds' =>
        by_cases hd0 : d0 = '('
        · subst hd0
          have hl := hC ds' rfl
          simp [matchMdDocLink, htw, hdw, hE, hl]
        · simp [matchMdDocLink, htw, hdw, hE, hd0]
  · exact matchMdDocLink_head hc

/-- After one pass, the text standing where a failed `](`-tail stood still
fails the `documents/` test. -/
theorem tail_fail_transfer {ds : List Char}
    (hC : ∀ r2, ds = '(' :: r2 → lit "documents/".data r2 = none) :
    ∀ r2, runSub matchMdDocLink ds = '(' :: r2 →
      lit "documents/".data r2 = none := by
  intro r2 hr
  cases ds with
  | nil => simp [runSub_nil] at hr
  | cons d0 ds' =>
    cases hm : matchMdDocLink (d0 :: ds') with
    | none =>
      rw [runSub_nomatch hm] at hr
      have hd0 : d0 = '(' := (List.cons.injEq _ _ _ _).mp hr |>.1
      subst hd0
      have hr2 : runSub matchMdDocLink ds' = r2 := (List.cons.injEq _ _ _ _).mp hr |>.2
      have hl := hC ds' rfl
      rw [← hr2]
      exact lit_none_transfer (by decide) ds' hl
    | some pr =>
      obtain ⟨p, rest⟩ := pr
      rw [runSub_match matchMdDocLink_shrink hm] at hr
      obtain ⟨lab, -, hp, -, -⟩ := matchMdDocLink_eq_some hm
      rw [hp] at hr
      simp at hr

/-- Transfer of pattern failure at a `[`-headed position across one
rewriting pass of the remainder. -/
theorem matchMdDocLink_none_transfer {cs : List Char}
    (h : matchMdDocLink ('[' :: cs) = none) :
    matchMdDocLink ('[' :: runSub matchMdDocLink cs) = none := by
  cases hd : cs.dropWhile (fun c => c != ']') with
  | nil =>
    rw [runSub_mdDoc_id_of_no_rbracket (no_rbracket_of_dropWhile_nil hd)]
    exact h
  | cons d ds =>
    have hdq : d = ']' := by
      have := List.head_dropWhile_not (p := fun c => c != ']') (l := cs) (by simp [hd])
      simpa [hd] using this
    subst hdq
    have hsplit : cs = cs.takeWhile (fun c => c != ']') ++ ']' :: ds := by
      conv_lhs => rw [← List.takeWhile_append_dropWhile (p := fun c => c != ']') (l := cs)]
      rw [hd]
    have hlabmem : ']' ∉ cs.takeWhile (fun c => c != ']') := by
      intro hmem
      have := List.mem_takeWhile_imp hmem
      simp at this
    by_cases hE : (cs.takeWhile (fun c => c != ']')).isEmpty
    · have htw0 : cs.takeWhile (fun c => c != ']') = [] := by
        simpa [List.isEmpty_iff] using hE
      have hcs' : cs = ']' :: ds := by
        conv_lhs => rw [hsplit]
        rw [htw0]
        simp
      rw [hcs', runSub_nomatch (matchMdDocLink_head (by decide))]
      simp [matchMdDocLink]
    · have hC : ∀ r2, ds = '(' :: r2 → lit "documents/".data r2 = none := by
        intro r2 hds
        subst hds
        cases hl : lit "documents/".data r2 with
        | none => rfl
        | some rest' =>
          exfalso
          simp [matchMdDocLink, hd, hl, hE] at h
      have hscan : ∀ c' cs₂, (c' :: cs₂) <:+ cs.takeWhile (fun c => c != ']') →
          matchMdDocLink (c' :: cs₂ ++ ']' :: ds) = none := by
        intro c' cs₂ hsuf
        have hmem : ']' ∉ cs₂ := fun hmem =>
          hlabmem (hsuf.subset (List.mem_cons_of_mem c' hmem))
        exact matchMdDocLink_fail_at hmem hC c'
      have hrw : runSub matchMdDocLink cs
          = cs.takeWhile (fun c => c != ']') ++ ']' :: runSub matchMdDocLink ds := by
        conv_lhs => rw [hsplit]
        rw [runSub_append_nomatch (cs.takeWhile (fun c => c != ']')) (']' :: ds)
          (fun c' cs₂ hs' => hscan c' cs₂ hs'),
          runSub_nomatch (matchMdDocLink_head (by decide))]
      rw [hrw]
      exact matchMdDocLink_fail_at hlabmem (tail_fail_transfer hC) '['

/-- No position of the replacement block matches the pattern, whatever
follows it. -/
theorem noMatch_in_repl {lab X : List Char} (hlab : ']' ∉ lab) :
    ∀ p₂, p₂ ≠ [] → p₂ <:+ ('[' :: lab ++ ']' :: '(' :: docBase) →
      matchMdDocLink (p₂ ++ X) = none := by
  intro p₂ hne hsuf
  have hsuf' : p₂ <:+ ('[' :: lab) ++ (']' :: '(' :: docBase) := by simpa using hsuf
  rcases suffix_append_cases hsuf' with h1 | ⟨a', ha1, ha2, ha3⟩
  · cases p₂ with
    | nil => exact absurd rfl hne
    | cons c cs' =>
      have hcmem : c ∈ ']' :: '(' :: docBase := h1.subset (List.mem_cons_self _ _)
      have hcne : c ≠ '[' := by
        intro hc
        subst hc
        exact absurd hcmem (by decide)
      rw [List.cons_append]
      exact matchMdDocLink_head hcne
  · subst ha3
    cases a' with
    | nil => exact absurd rfl ha2
    | cons c cs₂ =>
      by_cases hc : c = '['
      · subst hc
        have hmem : ']' ∉ cs₂ := by
          intro hmem
          have hsub := ha1.subset (List.mem_cons_of_mem '[' hmem)
          rcases List.mem_cons.mp hsub with h' | h'
          · simp at h'
          · exact hlab h'
        have : matchMdDocLink ('[' :: (cs₂ ++ ']' :: ('(' :: docBase ++ X))) = none := by
          refine matchMdDocLink_fail_at hmem ?_ '['
          intro r2 hr
          have h1' : '(' :: docBase ++ X = '(' :: r2 := by simpa using hr
          have h2' : docBase ++ X = r2 := by
            have := congrArg List.tail h1'
            simpa using this
          rw [← h2']
          exact lit_documents_docBase X
        simpa using this
      · rw [List.cons_append, List.cons_append]
        exact matchMdDocLink_head hc

/-- After one pass of the markdown document-link rewriting, no position of
the output matches the pattern any more. -/
theorem runSub_mdDoc_noMatch :
    ∀ n (s : List Char), s.length ≤ n →
      ∀ u v, runSub matchMdDocLink s = u ++ v → matchMdDocLink v = none := by
  intro n
  induction n with
  | zero =>
    intro s hs u v hor
    have hnil : s = [] := List.length_eq_zero.mp (Nat.le_zero.mp hs)
    subst hnil
    rw [runSub_nil] at hor
    have hv : v = [] := by
      have := congrArg List.length hor
      simp at this
      exact List.length_eq_zero.mp (by omega)
    rw [hv]
    exact matchMdDocLink_nil
  | succ k ih =>
    intro s hs u v hor
    cases s with
    | nil =>
      rw [runSub_nil] at hor
      have hv : v = [] := by
        have := congrArg List.length hor
        simp at this
        exact List.length_eq_zero.mp (by omega)
      rw [hv]
      exact matchMdDocLink_nil
    | cons c cs =>
      cases hm : matchMdDocLink (c :: cs) with
      | none =>
        rw [runSub_nomatch hm] at hor
        cases u with
        | cons u0 us =>
          have h2 : runSub matchMdDocLink cs = us ++ v := by
            have := congrArg List.tail hor
            simpa using this
          exact ih cs (by simp at hs; omega) us v h2
        | nil =>
          have hv : v = c :: runSub matchMdDocLink cs := by simpa using hor.symm
          subst hv
          by_cases hc : c = '['
          · subst hc
            exact matchMdDocLink_none_transfer hm
          · exact matchMdDocLink_head hc
      | some pr =>
        obtain ⟨p, rest⟩ := pr
        rw [runSub_match matchMdDocLink_shrink hm] at hor
        obtain ⟨lab, hs', hp, hlabne, hlabmem⟩ := matchMdDocLink_eq_some hm
        have hsuf : v <:+ p ++ runSub matchMdDocLink rest := ⟨u, hor.symm⟩
        rcases suffix_append_cases hsuf with h1 | ⟨p₂, hp₂suf, hp₂ne, hv⟩
        · obtain ⟨w, hw⟩ := h1
          have hlen : rest.length ≤ k := by
            have := matchMdDocLink_shrink _ _ _ hm
            simp at hs this
            omega
          exact ih rest hlen w v hw.symm
        · subst hv
          exact noMatch_in_repl hlabmem p₂ hp₂ne (hp ▸ hp₂suf)

/-- Claim C7: the markdown document-link pass is idempotent — applying
`process_markdown_document_links` twice produces the same result as
applying it once (after one pass no position of the output matches the
pattern, so the second pass is the identity). -/
theorem C7_mdDocLink_idempotent (content : String) :
    process_markdown_document_links (process_markdown_document_links content)
      = process_markdown_document_links content := by
  apply congrArg String.mk
  show runSub matchMdDocLink (String.mk (runSub matchMdDocLink content.data)).data
      = runSub matchMdDocLink content.data
  refine runSub_id _ ?_
  intro c cs hsuf
  obtain ⟨u, hu⟩ := hsuf
  exact runSub_mdDoc_noMatch content.data.length content.data le_rfl u (c :: cs) hu.symm

/-! ## Mutual exclusion of the retina and data-src passes (claim C6) -/

theorem searchK_none_of_noOcc {α : Type} {pat : List Char} {k : List Char → Option α} :
    ∀ {s : List Char}, ¬ OccursIn pat s → searchK pat k s = none := by
  intro s
  induction s with
  | nil =>
    intro h
    cases hl : lit pat [] with
    | some r => exact absurd (occursIn_of_lit hl) h
    | none => simp [searchK, hl]
  | cons c cs ih =>
    intro h
    cases hl : lit pat (c :: cs) with
    | some r => exact absurd (occursIn_of_lit hl) h
    | none =>
      simp only [searchK, hl]
      exact ih fun ho => h (occursIn_cons c ho)

theorem runSub_id_of_noOcc {m : Matcher} {pat : List Char}
    (hm : ∀ s p rest, m s = some (p, rest) → OccursIn pat s)
    {s : List Char} (h : ¬ OccursIn pat s) : runSub m s = s := by
  refine runSub_id s ?_
  intro c cs hsuf
  cases hmc : m (c :: cs) with
  | none => rfl
  | some pr =>
    exfalso
    obtain ⟨p, rest⟩ := pr
    obtain ⟨t, ht⟩ := hsuf
    exact h (ht ▸ occursIn_append_left t (hm _ _ _ hmc))

theorem searchNoGt_skip {α : Type} {pat : List Char} {k : List Char → Option α} :
    ∀ {a b : List Char}, (∀ c ∈ a, c ≠ '>') →
      (∀ a₂ ∈ a.tails, a₂ ≠ [] → lit pat (a₂ ++ b) = none) →
      searchNoGt pat k (a ++ b)
        = (searchNoGt pat k b).map (fun pa => (a ++ pa.1, pa.2)) := by
  intro a
  induction a with
  | nil =>
    intro b _ _
    simp only [List.nil_append]
    cases hs : searchNoGt pat k b with
    | none => simp
    | some pa => simp
  | cons c cs ih =>
    intro b hgt hfail
    have hl : lit pat ((c :: cs) ++ b) = none :=
      hfail (c :: cs) (by simp [List.mem_tails]) (by simp)
    have hc : c ≠ '>' := hgt c (List.mem_cons_self c cs)
    have hrec := ih (b := b) (fun x hx => hgt x (List.mem_cons_of_mem c hx))
      (fun a₂ ha₂ hne => hfail a₂ (by
        rw [List.mem_tails] at ha₂ ⊢
        exact ha₂.trans (List.suffix_cons c cs)) hne)
    rw [List.cons_append]
    simp only [searchNoGt, List.cons_append] at hl ⊢
    rw [hl]
    simp only [hc, if_false]
    rw [hrec]
    cases hs : searchNoGt pat k b with
    | none => simp
    | some pa => simp

theorem matchImgDataSrc_some_occurs {s p rest : List Char}
    (h : matchImgDataSrc s = some (p, rest)) : OccursIn "data-src=\"".data s := by
  cases h1 : lit "<img".data s with
  | none => simp [matchImgDataSrc, h1] at h
  | some r1 =>
    by_cases hws : (r1.takeWhile isPyWs).isEmpty
    · simp [matchImgDataSrc, h1, hws] at h
    · cases h2 : searchNoGt "data-src=\"".data dataSrcTail (r1.dropWhile isPyWs) with
      | none => simp [matchImgDataSrc, h1, hws, h2] at h
      | some ga =>
        obtain ⟨g1, a⟩ := ga
        obtain ⟨r, hr1, -⟩ := searchNoGt_eq_some h2
        have hocc : OccursIn "data-src=\"".data (r1.dropWhile isPyWs) :=
          ⟨g1, r, hr1⟩
        have e1 := lit_eq_some h1
        subst e1
        refine occursIn_append_left _ ?_
        have : r1 = r1.takeWhile isPyWs ++ r1.dropWhile isPyWs :=
          (List.takeWhile_append_dropWhile (p := isPyWs) (l := r1)).symm
        rw [this]
        exact occursIn_append_left _ hocc

theorem intercalate_pair (sep x y : List Char) :
    List.intercalate sep [x, y] = x ++ sep ++ y := by
  simp [List.intercalate]

theorem bne_all_of_ne {x : Char} {l : List Char} (h : ∀ c ∈ l, c ≠ x) :
    ∀ c ∈ l, (c != x) = true := by
  intro c hc
  simpa using h c hc

theorem quotedVal_eval {v rest : List Char} (hv : v ≠ []) (hq : ∀ c ∈ v, c ≠ '"') :
    quotedVal (v ++ '"' :: rest) = some (v, rest) := by
  have hall := bne_all_of_ne hq
  rw [quotedVal]
  rw [takeWhile_append_all hall, dropWhile_append_all hall]
  simp [List.isEmpty_iff, hv]

theorem upToGt_eval {g rest : List Char} (hg : ∀ c ∈ g, c ≠ '>') :
    upToGt (g ++ '>' :: rest) = some (g, rest) := by
  have hall := bne_all_of_ne hg
  rw [upToGt]
  rw [takeWhile_append_all hall, dropWhile_append_all hall]
  simp

theorem searchNoGt_here {α : Type} {pat : List Char} {k : List Char → Option α}
    {s r : List Char} {a : α} (hl : lit pat s = some r) (hk : k r = some a)
    (hs : s ≠ []) : searchNoGt pat k s = some ([], a) := by
  cases s with
  | nil => exact absurd rfl hs
  | cons c cs => simp [searchNoGt, hl, hk]

theorem buildImgTag_no_extra {attrs src : List Char}
    (h1 : ¬ OccursIn "class=\"".data attrs) (h2 : ¬ OccursIn "width=\"".data attrs)
    (h3 : ¬ OccursIn "height=\"".data attrs) (h4 : ¬ OccursIn "alt=\"".data attrs) :
    buildImgTag attrs src = "<img src=\"".data ++ src ++ "\" alt=\"\"/>".data := by
  rw [buildImgTag]
  rw [searchK_none_of_noOcc h1, searchK_none_of_noOcc h2,
    searchK_none_of_noOcc h3, searchK_none_of_noOcc h4]
  simp [intercalate_pair]

theorem matchImgRetina_eval_RD (r d : List Char) (hr : r ≠ [])
    (hrq : ∀ c ∈ r, c ≠ '"') (hdg : ∀ c ∈ d, c ≠ '>')
    (hnoc : ¬ OccursIn "class=\"".data (" data-src=\"".data ++ d ++ ['"']))
    (hnow : ¬ OccursIn "width=\"".data (" data-src=\"".data ++ d ++ ['"']))
    (hnoh : ¬ OccursIn "height=\"".data (" data-src=\"".data ++ d ++ ['"']))
    (hnoa : ¬ OccursIn "alt=\"".data (" data-src=\"".data ++ d ++ ['"'])) :
    matchImgRetina ("<img ".data ++ "data-src-retina=\"".data ++ r
        ++ '"' :: " data-src=\"".data ++ d ++ ['"', '>'])
      = some ("<img src=\"".data ++ r ++ "\" alt=\"\"/>".data, []) := by
  have hshape : "<img ".data ++ "data-src-retina=\"".data ++ r
      ++ '"' :: " data-src=\"".data ++ d ++ ['"', '>']
      = "<img".data ++ (' ' :: ("data-src-retina=\"".data
          ++ (r ++ '"' :: (" data-src=\"".data ++ (d ++ ['"', '>']))))) := by
    simp
  have hlit : lit "<img".data ("<img ".data ++ "data-src-retina=\"".data ++ r
      ++ '"' :: " data-src=\"".data ++ d ++ ['"', '>'])
      = some (' ' :: ("data-src-retina=\"".data
          ++ (r ++ '"' :: (" data-src=\"".data ++ (d ++ ['"', '>']))))) := by
    rw [hshape, lit_append]
  have hsh : " data-src=\"".data ++ (d ++ ['"', '>'])
      = (" data-src=\"".data ++ d ++ ['"']) ++ '>' :: [] := by simp
  have hg : ∀ c ∈ " data-src=\"".data ++ d ++ ['"'], c ≠ '>' := by
    intro c hc
    rcases List.mem_append.mp hc with hc | hc
    · rcases List.mem_append.mp hc with hc | hc
      · have hconc : ∀ c ∈ " data-src=\"".data, c ≠ '>' := by decide
        exact hconc c hc
      · exact hdg c hc
    · simp only [List.mem_singleton] at hc
      subst hc
      decide
  have hk : retinaTail (r ++ '"' :: (" data-src=\"".data ++ (d ++ ['"', '>'])))
      = some (r, (" data-src=\"".data ++ d ++ ['"'], [])) := by
    have hqv := @quotedVal_eval r (" data-src=\"".data ++ (d ++ ['"', '>'])) hr hrq
    have hup : upToGt (" data-src=\"".data ++ (d ++ ['"', '>']))
        = some (" data-src=\"".data ++ d ++ ['"'], []) := by
      rw [hsh]
      exact upToGt_eval hg
    simp only [retinaTail, hqv, hup]
  have hsearch : searchNoGt "data-src-retina=\"".data retinaTail
      ("data-src-retina=\"".data ++ (r ++ '"' :: (" data-src=\"".data ++ (d ++ ['"', '>']))))
      = some ([], (r, (" data-src=\"".data ++ d ++ ['"'], []))) :=
    searchNoGt_here (lit_append _ _) hk (by simp)
  have hws : ¬ ((' ' :: ("data-src-retina=\"".data
      ++ (r ++ '"' :: (" data-src=\"".data ++ (d ++ ['"', '>']))))).takeWhile
        isPyWs).isEmpty := by
    simp [List.takeWhile_cons, isPyWs]
  have hdrop : (' ' :: ("data-src-retina=\"".data
      ++ (r ++ '"' :: (" data-src=\"".data ++ (d ++ ['"', '>']))))).dropWhile isPyWs
      = "data-src-retina=\"".data ++ (r ++ '"' :: (" data-src=\"".data ++ (d ++ ['"', '>']))) := by
    simp [List.dropWhile_cons, isPyWs]
  simp only [matchImgRetina, hlit]
  rw [if_neg hws]
  rw [hdrop]
  simp only [hsearch, List.nil_append]
  rw [buildImgTag_no_extra hnoc hnow hnoh hnoa]

theorem matchImgRetina_eval_DR (r d : List Char) (hr : r ≠ [])
    (hrq : ∀ c ∈ r, c ≠ '"') (hdg : ∀ c ∈ d, c ≠ '>')
    (hskip : ∀ a₂ ∈ ("data-src=\"".data ++ d ++ ['"', ' ']).tails, a₂ ≠ [] →
      lit "data-src-retina=\"".data
        (a₂ ++ ("data-src-retina=\"".data ++ (r ++ ['"', '>']))) = none)
    (hnoc : ¬ OccursIn "class=\"".data ("data-src=\"".data ++ d ++ ['"', ' ']))
    (hnow : ¬ OccursIn "width=\"".data ("data-src=\"".data ++ d ++ ['"', ' ']))
    (hnoh : ¬ OccursIn "height=\"".data ("data-src=\"".data ++ d ++ ['"', ' ']))
    (hnoa : ¬ OccursIn "alt=\"".data ("data-src=\"".data ++ d ++ ['"', ' '])) :
    matchImgRetina ("<img ".data ++ "data-src=\"".data ++ d
        ++ '"' :: ' ' :: "data-src-retina=\"".data ++ r ++ ['"', '>'])
      = some ("<img src=\"".data ++ r ++ "\" alt=\"\"/>".data, []) := by
  have hshape : "<img ".data ++ "data-src=\"".data ++ d
      ++ '"' :: ' ' :: "data-src-retina=\"".data ++ r ++ ['"', '>']
      = "<img".data ++ (' ' :: (("data-src=\"".data ++ d ++ ['"', ' '])
          ++ ("data-src-retina=\"".data ++ (r ++ ['"', '>'])))) := by
    simp
  have hlit : lit "<img".data ("<img ".data ++ "data-src=\"".data ++ d
      ++ '"' :: ' ' :: "data-src-retina=\"".data ++ r ++ ['"', '>'])
      = some (' ' :: (("data-src=\"".data ++ d ++ ['"', ' '])
          ++ ("data-src-retina=\"".data ++ (r ++ ['"', '>'])))) := by
    rw [hshape, lit_append]
  have hk : retinaTail (r ++ ['"', '>']) = some (r, ([], [])) := by
    have hqv := @quotedVal_eval r ['>'] hr hrq
    have hup : upToGt (['>'] : List Char) = some ([], []) := by
      have := @upToGt_eval ([] : List Char) ([] : List Char) (by simp)
      simpa using this
    simp only [retinaTail, hqv, hup]
  have hsearchB : searchNoGt "data-src-retina=\"".data retinaTail
      ("data-src-retina=\"".data ++ (r ++ ['"', '>']))
      = some ([], (r, ([], []))) :=
    searchNoGt_here (lit_append _ _) hk (by simp)
  have hagt : ∀ c ∈ "data-src=\"".data ++ d ++ ['"', ' '], c ≠ '>' := by
    intro c hc
    rcases List.mem_append.mp hc with hc | hc
    · rcases List.mem_append.mp hc with hc | hc
      · have hconc : ∀ c ∈ "data-src=\"".data, c ≠ '>' := by decide
        exact hconc c hc
      · exact hdg c hc
    · have hconc : ∀ c ∈ (['"', ' '] : List Char), c ≠ '>' := by decide
      exact hconc c hc
  have hsearch : searchNoGt "data-src-retina=\"".data retinaTail
      (("data-src=\"".data ++ d ++ ['"', ' '])
        ++ ("data-src-retina=\"".data ++ (r ++ ['"', '>'])))
      = some ("data-src=\"".data ++ d ++ ['"', ' '], (r, ([], []))) := by
    rw [searchNoGt_skip hagt hskip, hsearchB]
    simp
  have hws : ¬ ((' ' :: (("data-src=\"".data ++ d ++ ['"', ' '])
      ++ ("data-src-retina=\"".data ++ (r ++ ['"', '>'])))).takeWhile isPyWs).isEmpty := by
    simp [List.takeWhile_cons, isPyWs]
  have hdrop : (' ' :: (("data-src=\"".data ++ d ++ ['"', ' '])
      ++ ("data-src-retina=\"".data ++ (r ++ ['"', '>'])))).dropWhile isPyWs
      = ("data-src=\"".data ++ d ++ ['"', ' '])
        ++ ("data-src-retina=\"".data ++ (r ++ ['"', '>'])) := by
    simp [List.dropWhile_cons, isPyWs]
  simp only [matchImgRetina, hlit]
  rw [if_neg hws]
  rw [hdrop]
  simp only [hsearch, List.append_nil]
  rw [buildImgTag_no_extra hnoc hnow hnoh hnoa]

theorem mk_data_eq {l : List Char} {s : String} (h : s.data = l) : String.mk l = s := by
  cases s
  simp only at h
  rw [h]

/-- Counterexample to claim C6: for an image tag carrying both attributes
with an empty `data-src-retina` value, the retina pass does not fire (its
value group requires a nonempty value) while the data-src pass does (its
lookahead only inspects the text after the `data-src` attribute), so the
tag is rewritten by the data-src pass, not the retina pass. -/
theorem C6_counterexample :
    process_images "<img data-src-retina=\"\" data-src=\"x.png\">"
      = "<img data-src-retina=\"\" data-src=\"x.png\">" ∧
    process_data_src_images "<img data-src-retina=\"\" data-src=\"x.png\">"
      = "<img src=\"x.png\" alt=\"\"/>" ∧
    ("<img src=\"x.png\" alt=\"\"/>" : String)
      ≠ "<img data-src-retina=\"\" data-src=\"x.png\">" := by
  decide

/-- Claim C6 as amended: for an image tag carrying both attributes (in
either order) whose `data-src-retina` value is nonempty, the retina pass
rewrites the tag exactly once — dropping the `data-src` attribute — and
the data-src pass leaves the result untouched; so the two normalization
passes are mutually exclusive except when the retina value is empty.  The
side conditions say that the attribute values contain no quote or tag
delimiter and that the surrounding text does not itself spell another
attribute pattern. -/
theorem C6_amended (r d : String)
    (hr : r.data ≠ [])
    (hrq : ∀ c ∈ r.data, c ≠ '"')
    (hdg : ∀ c ∈ d.data, c ≠ '>')
    (hskip : ∀ a₂ ∈ ("data-src=\"".data ++ d.data ++ ['"', ' ']).tails, a₂ ≠ [] →
      lit "data-src-retina=\"".data
        (a₂ ++ ("data-src-retina=\"".data ++ (r.data ++ ['"', '>']))) = none)
    (hnoRD : ∀ pat ∈ ["class=\"".data, "width=\"".data, "height=\"".data, "alt=\"".data],
      ¬ OccursIn pat (" data-src=\"".data ++ d.data ++ ['"']))
    (hnoDR : ∀ pat ∈ ["class=\"".data, "width=\"".data, "height=\"".data, "alt=\"".data],
      ¬ OccursIn pat ("data-src=\"".data ++ d.data ++ ['"', ' ']))
    (hnods : ¬ OccursIn "data-src=\"".data
      ("<img src=\"".data ++ r.data ++ "\" alt=\"\"/>".data)) :
    process_images ("<img data-src-retina=\"" ++ r ++ "\" data-src=\"" ++ d ++ "\">")
      = "<img src=\"" ++ r ++ "\" alt=\"\"/>" ∧
    process_images ("<img data-src=\"" ++ d ++ "\" data-src-retina=\"" ++ r ++ "\">")
      = "<img src=\"" ++ r ++ "\" alt=\"\"/>" ∧
    process_data_src_images ("<img src=\"" ++ r ++ "\" alt=\"\"/>")
      = "<img src=\"" ++ r ++ "\" alt=\"\"/>" ∧
    process_data_src_images (process_images
        ("<img data-src-retina=\"" ++ r ++ "\" data-src=\"" ++ d ++ "\">"))
      = process_images ("<img data-src-retina=\"" ++ r ++ "\" data-src=\"" ++ d ++ "\">") ∧
    process_data_src_images (process_images
        ("<img data-src=\"" ++ d ++ "\" data-src-retina=\"" ++ r ++ "\">"))
      = process_images ("<img data-src=\"" ++ d ++ "\" data-src-retina=\"" ++ r ++ "\">") := by
  have hRD := matchImgRetina_eval_RD r.data d.data hr hrq hdg
    (hnoRD _ (by simp)) (hnoRD _ (by simp)) (hnoRD _ (by simp)) (hnoRD _ (by simp))
  have hDR := matchImgRetina_eval_DR r.data d.data hr hrq hdg hskip
    (hnoDR _ (by simp)) (hnoDR _ (by simp)) (hnoDR _ (by simp)) (hnoDR _ (by simp))
  have h1 : process_images ("<img data-src-retina=\"" ++ r ++ "\" data-src=\"" ++ d ++ "\">")
      = "<img src=\"" ++ r ++ "\" alt=\"\"/>" := by
    show String.mk (runSub matchImgRetina _) = _
    have harg : ("<img data-src-retina=\"" ++ r ++ "\" data-src=\"" ++ d ++ "\">"
        : String).data
        = '<' :: ("img ".data ++ "data-src-retina=\"".data ++ r.data
            ++ '"' :: " data-src=\"".data ++ d.data ++ ['"', '>']) := by
      simp
    have hm' : matchImgRetina ('<' :: ("img ".data ++ "data-src-retina=\"".data ++ r.data
        ++ '"' :: " data-src=\"".data ++ d.data ++ ['"', '>']))
        = some ("<img src=\"".data ++ r.data ++ "\" alt=\"\"/>".data, []) := by
      rw [show '<' :: ("img ".data ++ "data-src-retina=\"".data ++ r.data
          ++ '"' :: " data-src=\"".data ++ d.data ++ ['"', '>'])
          = "<img ".data ++ "data-src-retina=\"".data ++ r.data
            ++ '"' :: " data-src=\"".data ++ d.data ++ ['"', '>'] from by simp]
      exact hRD
    rw [harg, runSub_match matchImgRetina_shrink hm', runSub_nil, List.append_nil]
    exact mk_data_eq (by simp)
  have h2 : process_images ("<img data-src=\"" ++ d ++ "\" data-src-retina=\"" ++ r ++ "\">")
      = "<img src=\"" ++ r ++ "\" alt=\"\"/>" := by
    show String.mk (runSub matchImgRetina _) = _
    have harg : ("<img data-src=\"" ++ d ++ "\" data-src-retina=\"" ++ r ++ "\">"
        : String).data
        = '<' :: ("img ".data ++ "data-src=\"".data ++ d.data
            ++ '"' :: ' ' :: "data-src-retina=\"".data ++ r.data ++ ['"', '>']) := by
      simp
    have hm' : matchImgRetina ('<' :: ("img ".data ++ "data-src=\"".data ++ d.data
        ++ '"' :: ' ' :: "data-src-retina=\"".data ++ r.data ++ ['"', '>']))
        = some ("<img src=\"".data ++ r.data ++ "\" alt=\"\"/>".data, []) := by
      rw [show '<' :: ("img ".data ++ "data-src=\"".data ++ d.data
          ++ '"' :: ' ' :: "data-src-retina=\"".data ++ r.data ++ ['"', '>'])
          = "<img ".data ++ "data-src=\"".data ++ d.data
            ++ '"' :: ' ' :: "data-src-retina=\"".data ++ r.data ++ ['"', '>'] from by simp]
      exact hDR
    rw [harg, runSub_match matchImgRetina_shrink hm', runSub_nil, List.append_nil]
    exact mk_data_eq (by simp)
  have h3 : process_data_src_images ("<img src=\"" ++ r ++ "\" alt=\"\"/>")
      = "<img src=\"" ++ r ++ "\" alt=\"\"/>" := by
    show String.mk (runSub matchImgDataSrc _) = _
    have harg : ("<img src=\"" ++ r ++ "\" alt=\"\"/>" : String).data
        = "<img src=\"".data ++ r.data ++ "\" alt=\"\"/>".data := by
      simp
    rw [harg, runSub_id_of_noOcc (fun _ _ _ hm => matchImgDataSrc_some_occurs hm) hnods]
    exact mk_data_eq (by simp)
  refine ⟨h1, h2, h3, ?_, ?_⟩
  · rw [h1]
    exact h3
  · rw [h2]
    exact h3

/-- Witness for C6's amended claim at concrete attribute values. -/
theorem C6_amended_witness :
    process_images ("<img data-src-retina=\"" ++ "r.png" ++ "\" data-src=\""
        ++ "x.png" ++ "\">")
      = "<img src=\"" ++ "r.png" ++ "\" alt=\"\"/>" ∧
    process_images ("<img data-src=\"" ++ "x.png" ++ "\" data-src-retina=\""
        ++ "r.png" ++ "\">")
      = "<img src=\"" ++ "r.png" ++ "\" alt=\"\"/>" ∧
    process_data_src_images ("<img src=\"" ++ "r.png" ++ "\" alt=\"\"/>")
      = "<img src=\"" ++ "r.png" ++ "\" alt=\"\"/>" :=
  have h := C6_amended "r.png" "x.png" (by decide) (by decide) (by decide) (by decide)
    (by decide) (by decide) (by decide)
  ⟨h.1, h.2.1, h.2.2.1⟩

/-! ## The reference extractor locates the group after the last `images/`
(claim C10) -/

theorem takeWhile_all {p : Char → Bool} : ∀ {l : List Char}, (∀ c ∈ l, p c) →
    l.takeWhile p = l := by
  intro l
  induction l with
  | nil => intro _; rfl
  | cons c cs ih =>
    intro h
    simp only [List.takeWhile_cons, h c (List.mem_cons_self c cs), if_true]
    rw [ih fun a ha => h a (List.mem_cons_of_mem c ha)]

theorem dropWhile_all {p : Char → Bool} : ∀ {l : List Char}, (∀ c ∈ l, p c) →
    l.dropWhile p = [] := by
  intro l
  induction l with
  | nil => intro _; rfl
  | cons c cs ih =>
    intro h
    simp only [List.dropWhile_cons, h c (List.mem_cons_self c cs), if_true]
    exact ih fun a ha => h a (List.mem_cons_of_mem c ha)

theorem lit_span {c : Char} : ∀ {p a b r : List Char}, lit p (a ++ c :: b) = some r →
    c ∉ p → p.length ≤ a.length := by
  intro p
  induction p with
  | nil => intro a b r _ _; simp
  | cons x ps ih =>
    intro a b r h hc
    cases a with
    | nil =>
      exfalso
      have := lit_eq_some h
      simp only [List.nil_append] at this
      have hcx : c = x := by
        have := congrArg (fun l => l.headD ' ') this
        simpa using this
      exact hc (hcx ▸ List.mem_cons_self x ps)
    | cons y as =>
      have hyx : y = x ∧ lit ps (as ++ c :: b) = some r := by
        by_cases hxy : y = x
        · subst hxy
          simpa [lit] using h
        · simp [lit, hxy] at h
      have := ih hyx.2 fun hm => hc (List.mem_cons_of_mem x hm)
      simp only [List.length_cons]
      omega

theorem append_eq_extract {a b p r : List Char} (h : a ++ b = p ++ r)
    (hle : p.length ≤ a.length) : ∃ a', a = p ++ a' := by
  refine ⟨a.drop p.length, ?_⟩
  have h1 : (a ++ b).take p.length = a.take p.length :=
    List.take_append_of_le_length hle
  have h2 : (p ++ r).take p.length = p := List.take_left p r
  have h3 : a.take p.length = p := by
    rw [← h1, h, h2]
  conv_lhs => rw [← List.take_append_drop p.length a]
  rw [h3]

theorem lastImgSegment_none_of_noOcc :
    ∀ {s : List Char}, ¬ OccursIn "images/".data s → lastImgSegment s = none := by
  intro s
  induction s with
  | nil => intro _; rfl
  | cons c cs ih =>
    intro h
    by_cases hc : c = '"' ∨ c = ')'
    · simp [lastImgSegment, hc]
    · rw [lastImgSegment]
      rw [if_neg hc, ih fun ho => h (occursIn_cons c ho)]
      cases hl : lit "images/".data (c :: cs) with
      | none => rfl
      | some r => exact absurd (occursIn_of_lit hl) h

theorem lastImgSegment_none_stop {b : List Char} :
    ∀ {a : List Char}, ¬ OccursIn "images/".data a →
      lastImgSegment (a ++ '"' :: b) = none := by
  intro a
  induction a with
  | nil => intro _; simp [lastImgSegment]
  | cons c cs ih =>
    intro h
    by_cases hc : c = '"' ∨ c = ')'
    · simp [lastImgSegment, hc]
    · rw [List.cons_append, lastImgSegment]
      rw [if_neg hc, ih fun ho => h (occursIn_cons c ho)]
      cases hl : lit "images/".data (c :: (cs ++ '"' :: b)) with
      | none => rfl
      | some r =>
        exfalso
        have hq : '"' ∉ "images/".data := by decide
        have hspan : ("images/".data).length ≤ (c :: cs).length :=
          lit_span (a := c :: cs) (by simpa using hl) hq
        have heq : (c :: cs) ++ '"' :: b = "images/".data ++ r := by
          simpa using lit_eq_some hl
        obtain ⟨a', ha'⟩ := append_eq_extract heq hspan
        exact h ⟨[], a', by simp only [List.nil_append]; exact ha'⟩

theorem lastImgSegment_locate {tail ex : List Char}
    (hdeep : lastImgSegment ("mages/".data ++ (tail ++ ex)) = none)
    (hg : (tail ++ ex).takeWhile isGroupChar = tail)
    (hne : tail ≠ []) :
    ∀ {mid : List Char}, (∀ c ∈ mid, ¬(c = '"' ∨ c = ')')) →
      lastImgSegment (mid ++ ("images/".data ++ (tail ++ ex)))
        = some (tail, (tail ++ ex).dropWhile isGroupChar) := by
  intro mid
  induction mid with
  | nil =>
    intro _
    have hcons : ([] : List Char) ++ ("images/".data ++ (tail ++ ex))
        = 'i' :: ("mages/".data ++ (tail ++ ex)) := by simp
    rw [hcons, lastImgSegment]
    rw [if_neg (by decide : ¬(('i' : Char) = '"' ∨ ('i' : Char) = ')')), hdeep]
    have hlit : lit "images/".data ('i' :: ("mages/".data ++ (tail ++ ex)))
        = some (tail ++ ex) := by
      rw [show 'i' :: ("mages/".data ++ (tail ++ ex))
          = "images/".data ++ (tail ++ ex) from by simp]
      exact lit_append _ _
    rw [hlit]
    simp only [hg]
    rw [if_neg (by simpa [List.isEmpty_iff] using hne)]
  | cons c cs ih =>
    intro hmid
    rw [List.cons_append, lastImgSegment]
    rw [if_neg (hmid c (List.mem_cons_self c cs)),
      ih fun a ha => hmid a (List.mem_cons_of_mem c ha)]

theorem runFind_cons_match {m : Matcher} (hm : Shrinking m) {s p rest : List Char}
    (hs : s ≠ []) (h : m s = some (p, rest)) :
    runFind m s = p :: runFind m rest := by
  cases s with
  | nil => exact absurd rfl hs
  | cons c cs => exact runFind_match hm h

theorem matchRawUrl_quote (cs : List Char) : matchRawUrl ('"' :: cs) = none := rfl

theorem matchRawUrl_space (cs : List Char) : matchRawUrl (' ' :: cs) = none := rfl

theorem matchRawUrl_eval {mid tail ex : List Char}
    (hmid : ∀ c ∈ mid, ¬(c = '"' ∨ c = ')'))
    (hne : tail ≠ [])
    (hex : lastImgSegment ("mages/".data ++ (tail ++ ex)) = none)
    (hg : (tail ++ ex).takeWhile isGroupChar = tail) :
    matchRawUrl ("https://raw.githubusercontent.com/".data
        ++ (mid ++ ("images/".data ++ (tail ++ ex))))
      = some (tail, (tail ++ ex).dropWhile isGroupChar) := by
  have hl : lit "https://raw.githubusercontent.com/".data
      ("https://raw.githubusercontent.com/".data
        ++ (mid ++ ("images/".data ++ (tail ++ ex))))
      = some (mid ++ ("images/".data ++ (tail ++ ex))) := lit_append _ _
  simp only [matchRawUrl, hl]
  exact lastImgSegment_locate hex hg hne hmid

/-- **C10.** The reference extractor captures the group after the *last*
occurrence of `images/` inside each matched raw-content URL, takes its final
path segment, and collects the results into a set, so the same filename
referenced twice (here: two quoted copies of the same URL) appears once. -/
theorem C10_extractor (mid tail : List Char)
    (hmid : ∀ c ∈ mid, ¬(c = '"' ∨ c = ')'))
    (htail : ∀ c ∈ tail, isGroupChar c = true)
    (hne : tail ≠ [])
    (honce : ¬ OccursIn "images/".data ("mages/".data ++ tail)) :
    extract_used_image_filenames
        ⟨"https://raw.githubusercontent.com/".data
          ++ (mid ++ ("images/".data ++ tail))⟩
      = {(⟨lastSegment tail⟩ : String)} ∧
    extract_used_image_filenames
        ⟨'"' :: (("https://raw.githubusercontent.com/".data
            ++ (mid ++ ("images/".data ++ tail)))
          ++ ('"' :: ' ' :: '"' :: (("https://raw.githubusercontent.com/".data
            ++ (mid ++ ("images/".data ++ tail))) ++ ['"'])))⟩
      = {(⟨lastSegment tail⟩ : String)} := by
  have hgq : isGroupChar '"' = false := by decide
  have hd0 : lastImgSegment ("mages/".data ++ (tail ++ [])) = none := by
    simp only [List.append_nil]
    exact lastImgSegment_none_of_noOcc honce
  have hg0 : (tail ++ []).takeWhile isGroupChar = tail := by
    simp only [List.append_nil]
    exact takeWhile_all htail
  have hdrop0 : (tail ++ []).dropWhile isGroupChar = [] := by
    simp only [List.append_nil]
    exact dropWhile_all htail
  have hdq : ∀ R : List Char,
      lastImgSegment ("mages/".data ++ (tail ++ ('"' :: R))) = none := by
    intro R
    rw [show "mages/".data ++ (tail ++ ('"' :: R))
        = ("mages/".data ++ tail) ++ '"' :: R from by simp]
    exact lastImgSegment_none_stop honce
  have hgtq : ∀ R : List Char,
      (tail ++ ('"' :: R)).takeWhile isGroupChar = tail := by
    intro R
    rw [takeWhile_append_all htail]
    simp [List.takeWhile_cons, hgq]
  have hdropq : ∀ R : List Char,
      (tail ++ ('"' :: R)).dropWhile isGroupChar = '"' :: R := by
    intro R
    rw [dropWhile_append_all htail]
    simp [List.dropWhile_cons, hgq]
  constructor
  · have hm0 := matchRawUrl_eval hmid hne hd0 hg0
    rw [hdrop0] at hm0
    have h1 : runFind matchRawUrl ("https://raw.githubusercontent.com/".data
        ++ (mid ++ ("images/".data ++ tail))) = [tail] := by
      rw [show "https://raw.githubusercontent.com/".data
            ++ (mid ++ ("images/".data ++ tail))
          = "https://raw.githubusercontent.com/".data
            ++ (mid ++ ("images/".data ++ (tail ++ []))) from by simp]
      rw [runFind_cons_match matchRawUrl_shrink (by exact List.cons_ne_nil _ _) hm0, runFind_nil]
    show ((runFind matchRawUrl ("https://raw.githubusercontent.com/".data
        ++ (mid ++ ("images/".data ++ tail)))).map
      (fun g => (⟨lastSegment g⟩ : String))).toFinset = {(⟨lastSegment tail⟩ : String)}
    rw [h1]
    simp
  · have h2 : runFind matchRawUrl ('"' :: (("https://raw.githubusercontent.com/".data
        ++ (mid ++ ("images/".data ++ tail)))
        ++ ('"' :: ' ' :: '"' :: (("https://raw.githubusercontent.com/".data
        ++ (mid ++ ("images/".data ++ tail))) ++ ['"'])))) = [tail, tail] := by
      rw [runFind_nomatch (matchRawUrl_quote _)]
      rw [show ("https://raw.githubusercontent.com/".data
            ++ (mid ++ ("images/".data ++ tail)))
            ++ ('"' :: ' ' :: '"' :: (("https://raw.githubusercontent.com/".data
            ++ (mid ++ ("images/".data ++ tail))) ++ ['"']))
          = "https://raw.githubusercontent.com/".data
            ++ (mid ++ ("images/".data ++ (tail
              ++ ('"' :: ' ' :: '"' :: (("https://raw.githubusercontent.com/".data
                ++ (mid ++ ("images/".data ++ tail))) ++ ['"']))))) from by simp]
      have hm1 := matchRawUrl_eval hmid hne
        (hdq (' ' :: '"' :: (("https://raw.githubusercontent.com/".data
          ++ (mid ++ ("images/".data ++ tail))) ++ ['"'])))
        (hgtq (' ' :: '"' :: (("https://raw.githubusercontent.com/".data
          ++ (mid ++ ("images/".data ++ tail))) ++ ['"'])))
      rw [hdropq (' ' :: '"' :: (("https://raw.githubusercontent.com/".data
        ++ (mid ++ ("images/".data ++ tail))) ++ ['"']))] at hm1
      rw [runFind_cons_match matchRawUrl_shrink (by exact List.cons_ne_nil _ _) hm1]
      rw [runFind_nomatch (matchRawUrl_quote _), runFind_nomatch (matchRawUrl_space _),
        runFind_nomatch (matchRawUrl_quote _)]
      rw [show ("https://raw.githubusercontent.com/".data
            ++ (mid ++ ("images/".data ++ tail))) ++ ['"']
          = "https://raw.githubusercontent.com/".data
            ++ (mid ++ ("images/".data ++ (tail ++ ('"' :: [])))) from by simp]
      have hm2 := matchRawUrl_eval hmid hne (hdq []) (hgtq [])
      rw [hdropq []] at hm2
      rw [runFind_cons_match matchRawUrl_shrink (by exact List.cons_ne_nil _ _) hm2]
      rw [runFind_nomatch (matchRawUrl_quote _), runFind_nil]
    show ((runFind matchRawUrl ('"' :: (("https://raw.githubusercontent.com/".data
        ++ (mid ++ ("images/".data ++ tail)))
        ++ ('"' :: ' ' :: '"' :: (("https://raw.githubusercontent.com/".data
        ++ (mid ++ ("images/".data ++ tail))) ++ ['"']))))).map
      (fun g => (⟨lastSegment g⟩ : String))).toFinset = {(⟨lastSegment tail⟩ : String)}
    rw [h2]
    simp

/-- Witness for `C10_extractor`: the URL
`"https://raw.githubusercontent.com/tumult/hype-documentation/main/images/a%20v2.png"`,
also quoted twice, extracts exactly `{"a%20v2.png"}`. -/
theorem C10_extractor_witness :
    extract_used_image_filenames
        ⟨"https://raw.githubusercontent.com/".data
          ++ ("tumult/hype-documentation/main/".data
            ++ ("images/".data ++ "a%20v2.png".data))⟩
      = {(⟨lastSegment "a%20v2.png".data⟩ : String)} ∧
    extract_used_image_filenames
        ⟨'"' :: (("https://raw.githubusercontent.com/".data
            ++ ("tumult/hype-documentation/main/".data
              ++ ("images/".data ++ "a%20v2.png".data)))
          ++ ('"' :: ' ' :: '"' :: (("https://raw.githubusercontent.com/".data
            ++ ("tumult/hype-documentation/main/".data
              ++ ("images/".data ++ "a%20v2.png".data))) ++ ['"'])))⟩
      = {(⟨lastSegment "a%20v2.png".data⟩ : String)} :=
  C10_extractor "tumult/hype-documentation/main/".data "a%20v2.png".data
    (by decide) (by decide) (by decide) (by decide)

/-! ## Canonical well-formed table streams (claim C3) -/

/-- Event triple delivered for one table cell holding the text `c`. -/
def cellEvents (cellTag : String) (c : String) : List HtmlEvent :=
  [HtmlEvent.start cellTag [], HtmlEvent.text c, HtmlEvent.endtag cellTag]

/-- Event stream of one table row of cells tagged `cellTag`. -/
def rowEvents (cellTag : String) (row : List String) : List HtmlEvent :=
  [HtmlEvent.start "tr" []] ++ (row.map (cellEvents cellTag)).flatten
    ++ [HtmlEvent.endtag "tr"]

/-- Event stream of a well-formed table: an explicit head section of
`headRows` rows of `th` cells followed by a body of `bodyRows` rows of
`td` cells. -/
def tableEvents (headRows bodyRows : List (List String)) : List HtmlEvent :=
  ([HtmlEvent.start "table" [], HtmlEvent.start "thead" []]
    ++ (headRows.map (rowEvents "th")).flatten)
  ++ (([HtmlEvent.endtag "thead", HtmlEvent.start "tbody" []]
    ++ (bodyRows.map (rowEvents "td")).flatten)
  ++ [HtmlEvent.endtag "tbody", HtmlEvent.endtag "table"])

/-- Last cell text appearing along a list of rows, with default `d`. -/
def lastCellD (rws : List (List String)) (d : String) : String :=
  rws.foldl (fun acc r => r.getLastD acc) d

theorem str_empty_append (s : String) : "" ++ s = s := by
  cases s
  rfl

theorem foldCell_th (st : TableParser) (c : String)
    (hs : strip c = c) (hp : processCellEnd c = c) :
    List.foldl tableStep st (cellEvents "th" c)
      = { st with in_th := false, current_cell := c, current_row := st.current_row ++ [c] } := by
  by_cases hc0 : c = ""
  · subst hc0
    simp [cellEvents, tableStep, handle_starttag, handle_data, handle_endtag, hs, hp]
  · simp [cellEvents, tableStep, handle_starttag, handle_data, handle_endtag,
      hs, hp, hc0, str_empty_append]

theorem foldCell_td (st : TableParser) (c : String)
    (hs : strip c = c) (hp : processCellEnd c = c) :
    List.foldl tableStep st (cellEvents "td" c)
      = { st with in_td := false, current_cell := c, current_row := st.current_row ++ [c] } := by
  by_cases hc0 : c = ""
  · subst hc0
    simp [cellEvents, tableStep, handle_starttag, handle_data, handle_endtag, hs, hp]
  · simp [cellEvents, tableStep, handle_starttag, handle_data, handle_endtag,
      hs, hp, hc0, str_empty_append]

theorem foldCells_th (st : TableParser) (row : List String)
    (hrow : ∀ c ∈ row, strip c = c ∧ processCellEnd c = c)
    (hth : st.in_th = false) :
    List.foldl tableStep st ((row.map (cellEvents "th")).flatten)
      = { st with in_th := false, current_cell := row.getLastD st.current_cell, current_row := st.current_row ++ row } := by
  induction row generalizing st with
  | nil =>
    cases st
    simp_all
  | cons c cs ih =>
    simp only [List.map_cons, List.flatten_cons, List.foldl_append]
    rw [foldCell_th st c (hrow c (List.mem_cons_self c cs)).1
      (hrow c (List.mem_cons_self c cs)).2]
    rw [ih ({ st with in_th := false, current_cell := c, current_row := st.current_row ++ [c] })
      (fun a ha => hrow a (List.mem_cons_of_mem c ha)) rfl]
    rw [List.getLastD_cons]
    cases st
    simp

theorem foldCells_td (st : TableParser) (row : List String)
    (hrow : ∀ c ∈ row, strip c = c ∧ processCellEnd c = c)
    (htd : st.in_td = false) :
    List.foldl tableStep st ((row.map (cellEvents "td")).flatten)
      = { st with in_td := false, current_cell := row.getLastD st.current_cell, current_row := st.current_row ++ row } := by
  induction row generalizing st with
  | nil =>
    cases st
    simp_all
  | cons c cs ih =>
    simp only [List.map_cons, List.flatten_cons, List.foldl_append]
    rw [foldCell_td st c (hrow c (List.mem_cons_self c cs)).1
      (hrow c (List.mem_cons_self c cs)).2]
    rw [ih ({ st with in_td := false, current_cell := c, current_row := st.current_row ++ [c] })
      (fun a ha => hrow a (List.mem_cons_of_mem c ha)) rfl]
    rw [List.getLastD_cons]
    cases st
    simp

theorem foldRowTh (st : TableParser) (row : List String)
    (hrow : ∀ c ∈ row, strip c = c ∧ processCellEnd c = c)
    (hin : st.in_thead = true) (hth : st.in_th = false) :
    List.foldl tableStep st (rowEvents "th" row)
      = { st with in_tr := false, in_th := false, current_cell := row.getLastD st.current_cell, current_row := row, headers := row } := by
  simp only [rowEvents, List.foldl_append, List.foldl_cons, List.foldl_nil]
  have h1 : tableStep st (HtmlEvent.start "tr" [])
      = { st with in_tr := true, current_row := [] } := by
    simp [tableStep, handle_starttag]
  rw [h1]
  rw [foldCells_th ({ st with in_tr := true, current_row := [] }) row hrow hth]
  cases st
  simp_all [tableStep, handle_endtag]

theorem foldRowTd (st : TableParser) (row : List String)
    (hrow : ∀ c ∈ row, strip c = c ∧ processCellEnd c = c)
    (hh : st.in_thead = false) (hb : st.in_tbody = true) (htd : st.in_td = false) :
    List.foldl tableStep st (rowEvents "td" row)
      = { st with in_tr := false, in_td := false, current_cell := row.getLastD st.current_cell, current_row := row, rows := st.rows ++ [row] } := by
  simp only [rowEvents, List.foldl_append, List.foldl_cons, List.foldl_nil]
  have h1 : tableStep st (HtmlEvent.start "tr" [])
      = { st with in_tr := true, current_row := [] } := by
    simp [tableStep, handle_starttag]
  rw [h1]
  rw [foldCells_td ({ st with in_tr := true, current_row := [] }) row hrow htd]
  cases st
  simp_all [tableStep, handle_endtag]

theorem foldRowsTh (st : TableParser) (rws : List (List String))
    (hrow : ∀ row ∈ rws, ∀ c ∈ row, strip c = c ∧ processCellEnd c = c)
    (hin : st.in_thead = true) (hth : st.in_th = false) (htr : st.in_tr = false) :
    List.foldl tableStep st ((rws.map (rowEvents "th")).flatten)
      = { st with in_tr := false, in_th := false, current_cell := lastCellD rws st.current_cell, current_row := rws.getLastD st.current_row, headers := rws.getLastD st.headers } := by
  induction rws generalizing st with
  | nil =>
    cases st
    simp_all [lastCellD]
  | cons r rs ih =>
    simp only [List.map_cons, List.flatten_cons, List.foldl_append]
    rw [foldRowTh st r (hrow r (List.mem_cons_self r rs)) hin hth]
    rw [ih ({ st with in_tr := false, in_th := false, current_cell := r.getLastD st.current_cell, current_row := r, headers := r })
      (fun a ha => hrow a (List.mem_cons_of_mem r ha)) hin rfl rfl]
    rw [List.getLastD_cons, List.getLastD_cons]
    cases st
    simp [lastCellD]

theorem foldRowsTd (st : TableParser) (rws : List (List String))
    (hrow : ∀ row ∈ rws, ∀ c ∈ row, strip c = c ∧ processCellEnd c = c)
    (hh : st.in_thead = false) (hb : st.in_tbody = true)
    (htd : st.in_td = false) (htr : st.in_tr = false) :
    List.foldl tableStep st ((rws.map (rowEvents "td")).flatten)
      = { st with in_tr := false, in_td := false, current_cell := lastCellD rws st.current_cell, current_row := rws.getLastD st.current_row, rows := st.rows ++ rws } := by
  induction rws generalizing st with
  | nil =>
    cases st
    simp_all [lastCellD]
  | cons r rs ih =>
    simp only [List.map_cons, List.flatten_cons, List.foldl_append]
    rw [foldRowTd st r (hrow r (List.mem_cons_self r rs)) hh hb htd]
    rw [ih ({ st with in_tr := false, in_td := false, current_cell := r.getLastD st.current_cell, current_row := r, rows := st.rows ++ [r] })
      (fun a ha => hrow a (List.mem_cons_of_mem r ha)) hh hb rfl rfl]
    rw [List.getLastD_cons]
    cases st
    simp [lastCellD, List.append_assoc]

theorem mem_padTruncate_of_mem_take {c : String} {n : Nat} {row : List String}
    (h : c ∈ row.take n) : c ∈ padTruncate n row := by
  simp only [padTruncate]
  rw [List.take_append_eq_append_take]
  exact List.mem_append_left _ h

theorem occursIn_cell_line {c : String} {cells : List String} (h : c ∈ cells)
    (pre post : String) :
    OccursIn c.data (pre ++ joinSep " | " cells ++ post).data := by
  rw [String.data_append, String.data_append]
  exact occursIn_append_right _ (occursIn_append_left _ (occursIn_joinSep h))

/-- **C3 counterexample.**  On a table whose explicit `<thead>` holds two
rows, the translator drops the first head row: the cell text `A` occurs
nowhere in the output, and the output is not the original HTML either. -/
theorem C3_counterexample :
    convert_html_tables_to_markdown
        "<table><thead><tr><th>A</th></tr><tr><th>B</th></tr></thead><tbody><tr><td>x</td></tr></tbody></table>"
      = "\n| B |\n| --- |\n| x |\n" ∧
    ¬ OccursIn "A".data ("\n| B |\n| --- |\n| x |\n" : String).data ∧
    ("\n| B |\n| --- |\n| x |\n" : String)
      ≠ "<table><thead><tr><th>A</th></tr><tr><th>B</th></tr></thead><tbody><tr><td>x</td></tr></tbody></table>" :=
  ⟨by decide, by decide, by decide⟩

/-- **C3 (amended).**  For a well-formed table stream with head rows
`headRows` (the translator keeps only the *last* head row as the header)
and body rows `bodyRows`, the produced markdown is the `generateLines`
rendering of that header with the body rows; it contains the text of every
cell of the last head row and of every body-row cell surviving truncation
to the header width.  Cells are assumed already clean (fixed by `strip`
and by the cell-end processing). -/
theorem C3_amended (headRows bodyRows : List (List String))
    (hclean : ∀ row ∈ headRows ++ bodyRows, ∀ c ∈ row,
      strip c = c ∧ processCellEnd c = c)
    (hlast : headRows.getLastD [] ≠ []) :
    markdownOfEvents (tableEvents headRows bodyRows)
      = joinSep "\n" (generateLines (headRows.getLastD []) bodyRows) ∧
    (∀ c ∈ headRows.getLastD [],
      OccursIn c.data (markdownOfEvents (tableEvents headRows bodyRows)).data) ∧
    (∀ row ∈ bodyRows, ∀ c ∈ row.take (headRows.getLastD []).length,
      OccursIn c.data (markdownOfEvents (tableEvents headRows bodyRows)).data) := by
  have hH : (headRows.getLastD []).isEmpty = false := by
    cases hE : headRows.getLastD [] with
    | nil => exact absurd hE hlast
    | cons a l => rfl
  have hrowH : ∀ row ∈ headRows, ∀ c ∈ row, strip c = c ∧ processCellEnd c = c :=
    fun row hr => hclean row (List.mem_append_left _ hr)
  have hrowB : ∀ row ∈ bodyRows, ∀ c ∈ row, strip c = c ∧ processCellEnd c = c :=
    fun row hr => hclean row (List.mem_append_right _ hr)
  have hmd : markdownOfEvents (tableEvents headRows bodyRows)
      = joinSep "\n" (generateLines (headRows.getLastD []) bodyRows) := by
    simp only [markdownOfEvents, tableFeed, tableEvents, List.foldl_append,
      List.foldl_cons, List.foldl_nil]
    have e1 : tableStep (tableStep {} (HtmlEvent.start "table" []))
        (HtmlEvent.start "thead" [])
        = (⟨true, true, false, false, false, false, [], "", [], [], ""⟩ : TableParser) := by
      decide
    rw [e1]
    rw [foldRowsTh (⟨true, true, false, false, false, false, [], "", [], [], ""⟩ :
      TableParser) headRows hrowH rfl rfl rfl]
    dsimp only
    have e3 : tableStep (tableStep
        (⟨true, true, false, false, false, false, headRows.getLastD [],
          lastCellD headRows "", headRows.getLastD [], [], ""⟩ : TableParser)
        (HtmlEvent.endtag "thead")) (HtmlEvent.start "tbody" [])
        = ⟨true, false, true, false, false, false, headRows.getLastD [],
          lastCellD headRows "", headRows.getLastD [], [], ""⟩ := by
      simp [tableStep, handle_endtag, handle_starttag]
    rw [e3]
    rw [foldRowsTd (⟨true, false, true, false, false, false, headRows.getLastD [],
        lastCellD headRows "", headRows.getLastD [], [], ""⟩ : TableParser)
      bodyRows hrowB rfl rfl rfl rfl]
    dsimp only [List.nil_append]
    have e5 : (tableStep (tableStep
        (⟨true, false, true, false, false, false,
          bodyRows.getLastD (headRows.getLastD []),
          lastCellD bodyRows (lastCellD headRows ""),
          headRows.getLastD [], bodyRows, ""⟩ : TableParser)
        (HtmlEvent.endtag "tbody")) (HtmlEvent.endtag "table")).markdown_table
        = joinSep "\n" (generateLines (headRows.getLastD []) bodyRows) := by
      have hlast2 : headRows.getLast?.getD ([] : List String) ≠ [] := by
        simpa [List.getLastD_eq_getLast?] using hlast
      simp [tableStep, handle_endtag, generate_markdown_table, hlast2]
    exact e5
  refine ⟨hmd, ?_, ?_⟩
  · intro c hc
    rw [hmd]
    have hline : ("| " ++ joinSep " | " (headRows.getLastD []) ++ " |")
        ∈ generateLines (headRows.getLastD []) bodyRows := by
      simp [generateLines]
    exact occursIn_trans (occursIn_cell_line hc "| " " |") (occursIn_joinSep hline)
  · intro row hrw c hc
    rw [hmd]
    have hmem : c ∈ padTruncate (headRows.getLastD []).length row :=
      mem_padTruncate_of_mem_take hc
    have hline : ("| " ++ joinSep " | "
          (padTruncate (headRows.getLastD []).length row) ++ " |")
        ∈ generateLines (headRows.getLastD []) bodyRows := by
      simp only [generateLines, List.mem_cons]
      right; right
      exact List.mem_map_of_mem _ hrw
    exact occursIn_trans (occursIn_cell_line hmem "| " " |") (occursIn_joinSep hline)

/-- Witness for `C3_amended`: head rows `[["A"], ["B"]]` and one body row
`["x", "y"]`; the kept header is `["B"]`. -/
theorem C3_amended_witness :
    (∀ row ∈ [["A"], ["B"]] ++ [["x", "y"]], ∀ c ∈ row,
      strip c = c ∧ processCellEnd c = c) ∧
    List.getLastD [["A"], ["B"]] ([] : List String) ≠ [] ∧
    (markdownOfEvents (tableEvents [["A"], ["B"]] [["x", "y"]])
        = joinSep "\n" (generateLines (List.getLastD [["A"], ["B"]] []) [["x", "y"]]) ∧
      (∀ c ∈ List.getLastD [["A"], ["B"]] ([] : List String),
        OccursIn c.data (markdownOfEvents (tableEvents [["A"], ["B"]] [["x", "y"]])).data) ∧
      (∀ row ∈ [["x", "y"]], ∀ c ∈ row.take (List.getLastD [["A"], ["B"]] ([] : List String)).length,
        OccursIn c.data (markdownOfEvents (tableEvents [["A"], ["B"]] [["x", "y"]])).data)) :=
  ⟨by decide, by decide,
    C3_amended [["A"], ["B"]] [["x", "y"]] (by decide) (by decide)⟩

end Combine
